import Mathlib

/-!
Shallow embedding of the production-chain planner core:
recipe catalog and product index, rate arithmetic, recipe-preference
resolution, the graph builder with per-node expansion budgets, totals
aggregation, and the expansion-controller operations
(expandNodeOnce, expandBranchBy, swapNodeRecipe).

Machine floats are modelled by exact rationals; JS records are modelled
by total functions with the JS default (`?? 0`, `?? []`, falsy absence)
built in at each read site, exactly as the source reads them.
-/

namespace CalcIndustry

/-- One input or output line of a recipe: `{ name, qtyPerCycle }`. -/
structure IOEntry where
  name : String
  qtyPerCycle : ℚ
deriving DecidableEq, Repr

/-- A recipe: `{recipeId, building, timeSec, inputs, outputs}`. -/
structure Recipe where
  recipeId : String
  building : String
  timeSec : ℚ
  inputs : List IOEntry
  outputs : List IOEntry
deriving DecidableEq, Repr

/-- The loaded recipe list (RECIPES). -/
abbrev Catalog := List Recipe

/-- JS `String.prototype.trim`: strip whitespace from both ends. -/
def jsTrim (s : String) : String :=
  ⟨(((s.data.dropWhile Char.isWhitespace).reverse.dropWhile
      Char.isWhitespace).reverse)⟩

/-- JS `String.prototype.toLowerCase` (over the catalog's plain names). -/
def jsToLower (s : String) : String :=
  ⟨s.data.map Char.toLower⟩

/-- Index lookup `PRODUCT_INDEX[product]`: the recipes producing `product`, in catalog
order; a recipe is pushed once per output whose trimmed name equals the
key, exactly as the index is built by the source's reduce/forEach. -/
def productIndex (cat : Catalog) (product : String) : List Recipe :=
  cat.foldl
    (fun acc r =>
      acc ++ (r.outputs.filter (fun o => jsTrim o.name = product)).map (fun _ => r))
    []

/-- Name normalization used by the rate lookup: `trim().toLowerCase()`. -/
def normName (s : String) : String := jsToLower (jsTrim s)

/-- Rate lookup `outputRatePerMin(r, product)`: rate of the first output whose
normalized name matches `product`, `(qtyPerCycle / timeSec) * 60`, or 0
when no output matches. -/
def outputRatePerMin (r : Recipe) (product : String) : ℚ :=
  match r.outputs.find? (fun o => normName o.name = normName product) with
  | none => 0
  | some o => o.qtyPerCycle / r.timeSec * 60

/-- A node's input line `{ name, ratePerMin }`. -/
structure NodeIn where
  name : String
  ratePerMin : ℚ
deriving DecidableEq, Repr

/-- A node's output line `{ name, ratePerMin, isTarget }`. -/
structure NodeOut where
  name : String
  ratePerMin : ℚ
  isTarget : Bool
deriving DecidableEq, Repr

/-- A graph node (one instantiated production step). -/
structure GraphNode where
  id : String
  product : String
  recipeId : String
  building : String
  runsPerMin : ℚ
  timeSec : ℚ
  inputs : List NodeIn
  outputs : List NodeOut
  depth : Nat
deriving DecidableEq, Repr

/-- A graph edge `{id, source, target, label}`. -/
structure GraphEdge where
  id : String
  source : String
  target : String
  label : String
deriving DecidableEq, Repr

/-- Deterministic node id: `product + "::" + recipeId`. -/
def nodeIdFor (product recipeId : String) : String :=
  product ++ "::" ++ recipeId

/-- Node construction `makeNode(recipe, targetProduct, requiredRatePerMin, depth)`:
`runs = rate ? requiredRatePerMin / rate : 0`; inputs scale by
`runs * qtyPerCycle`; outputs scale by `runs * (qtyPerCycle/timeSec) * 60`
and are flagged `isTarget` by normalized-name equality with the target. -/
def makeNode (recipe : Recipe) (targetProduct : String)
    (requiredRatePerMin : ℚ) (depth : Nat) : GraphNode :=
  let rate := outputRatePerMin recipe targetProduct
  let runs := if rate = 0 then 0 else requiredRatePerMin / rate
  { id := nodeIdFor targetProduct recipe.recipeId
    product := targetProduct
    recipeId := recipe.recipeId
    building := recipe.building
    runsPerMin := runs
    timeSec := recipe.timeSec
    inputs := recipe.inputs.map (fun i => ⟨i.name, runs * i.qtyPerCycle⟩)
    outputs := recipe.outputs.map (fun o =>
      ⟨o.name, runs * (o.qtyPerCycle / recipe.timeSec) * 60,
       decide (normName o.name = normName targetProduct)⟩)
    depth := depth }

/-- Rounding `Math.round(x * 100) / 100` (JS `Math.round` is `⌊x + 1/2⌋`). -/
def r2 (x : ℚ) : ℚ := (round (x * 100) : ℤ) / 100

/-- Aggregated totals: raw draw and byproducts, as finitely supported
maps from product name to rate (absent key = 0). -/
structure Totals where
  raw : String → ℚ
  byproducts : String → ℚ

/-- Point update of a string-keyed map modelled as a function. -/
def upd {α : Type} (f : String → α) (k : String) (v : α) : String → α :=
  fun x => if x = k then v else f x

/-- Aggregation `computeTotals(nodes)`: accumulate inputs whose product is absent from
the index into `raw`, non-target outputs into `byproducts`, then round
every accumulated value to 2 decimals. -/
def computeTotals (cat : Catalog) (nodes : List GraphNode) : Totals :=
  let rawAcc : String → ℚ :=
    nodes.foldl
      (fun acc n =>
        n.inputs.foldl
          (fun acc i =>
            if productIndex cat i.name = [] then
              upd acc i.name (acc i.name + i.ratePerMin)
            else acc)
          acc)
      (fun _ => 0)
  let bypAcc : String → ℚ :=
    nodes.foldl
      (fun acc n =>
        n.outputs.foldl
          (fun acc o =>
            if o.isTarget then acc
            else upd acc o.name (acc o.name + o.ratePerMin))
          acc)
      (fun _ => 0)
  { raw := fun k => r2 (rawAcc k)
    byproducts := fun k => r2 (bypAcc k) }

/-- One cascade step of the preference resolver: a JS-truthy optional key
selecting the first recipe of `list` satisfying the key's test. -/
def pickStep (list : List Recipe) (opt : Option String)
    (test : String → Recipe → Bool) : Option Recipe :=
  match opt with
  | none => none
  | some v => if v = "" then none else list.find? (test v)

/-- Resolution `pickRecipeWithPrefs(product, explicitRecipe, preferredBuilding,
parentBuildingPreferred)`: explicit recipe, then parent building, then
stored building, then catalog-order head. -/
def pickRecipeWithPrefs (cat : Catalog) (product : String)
    (explicitRecipe : Option String) (preferredBuilding : Option String)
    (parentBuildingPreferred : Option String) : Option Recipe :=
  let list := productIndex cat product
  match pickStep list explicitRecipe (fun e x => x.recipeId = e) with
  | some r => some r
  | none =>
    match pickStep list parentBuildingPreferred (fun b x => x.building = b) with
    | some r => some r
    | none =>
      match pickStep list preferredBuilding (fun b x => x.building = b) with
      | some r => some r
      | none => list.head?

/-- A target `{product, ratePerMin, recipeId?}`. -/
structure Target where
  product : String
  ratePerMin : ℚ
  recipeId : Option String
deriving DecidableEq, Repr

/-- Mutable state of one `build()` run: the node list (push order), the
edge list, and the `byKey`/`byId` map (both are keyed by the node id, so
one map models both). -/
structure BuildSt where
  nodes : List GraphNode
  edges : List GraphEdge
  byKey : String → Option GraphNode

/-- The empty build state. -/
def BuildSt.empty : BuildSt :=
  { nodes := [], edges := [], byKey := fun _ => none }

/-- Materialization `ensureNode(product, requiredRatePerMin, depth, parentBuilding)`:
resolve the recipe via preferences, reuse the node stored under
`product::recipeId` if present, otherwise materialize a fresh node. -/
def ensureNode (cat : Catalog)
    (choicesRecipe choicesBuilding : String → Option String)
    (product : String) (requiredRatePerMin : ℚ) (depth : Nat)
    (parentBuilding : Option String) (st : BuildSt) :
    BuildSt × Option GraphNode :=
  match pickRecipeWithPrefs cat product (choicesRecipe product)
      (choicesBuilding product) parentBuilding with
  | none => (st, none)
  | some r =>
    let key := nodeIdFor product r.recipeId
    match st.byKey key with
    | some n => (st, some n)
    | none =>
      let n := makeNode r product requiredRatePerMin depth
      ({ nodes := st.nodes ++ [n]
         edges := st.edges
         byKey := upd st.byKey key (some n) }, some n)

/-- Edge push `connect(parent, child, label)`: push an edge whose id embeds the
current edge count. -/
def connect (st : BuildSt) (parent child : GraphNode) (label : String) :
    BuildSt :=
  { st with edges := st.edges ++
      [⟨parent.id ++ "=>" ++ child.id ++ "#" ++ toString st.edges.length,
        parent.id, child.id, label⟩] }

/-- Step 1 body for one target: materialize the root (depth 0, no parent
hint) and, for each craftable input, a depth-1 child plus a root→child
edge. -/
def step1Target (cat : Catalog)
    (choicesRecipe choicesBuilding : String → Option String)
    (st : BuildSt) (t : Target) : BuildSt :=
  match ensureNode cat choicesRecipe choicesBuilding t.product t.ratePerMin
      0 none st with
  | (st1, none) => st1
  | (st1, some root) =>
    root.inputs.foldl
      (fun st i =>
        if productIndex cat i.name = [] then st
        else
          match ensureNode cat choicesRecipe choicesBuilding i.name
              i.ratePerMin 1 (some root.building) st with
          | (st2, none) => st2
          | (st2, some child) => connect st2 root child i.name)
      st1

/-- A work item of the expansion queue: `{ id, rem }`. -/
abbrev QItem := String × ℤ

/-- Per-input body of the BFS expansion: ensure the child, connect if not
already connected, and relax the child's allowance
(`max(effParent - 1, child's own budget)`), re-enqueueing on strict
improvement over the best allowance recorded so far (`?? -1`). -/
def bfsChildStep (cat : Catalog)
    (choicesRecipe choicesBuilding : String → Option String)
    (budget : String → ℤ) (parent : GraphNode) (effParent : ℤ)
    (acc : BuildSt × (String → Option ℤ) × List QItem) (i : NodeIn) :
    BuildSt × (String → Option ℤ) × List QItem :=
  let (st, best, queue) := acc
  if productIndex cat i.name = [] then (st, best, queue)
  else
    match ensureNode cat choicesRecipe choicesBuilding i.name i.ratePerMin
        (parent.depth + 1) (some parent.building) st with
    | (st1, none) => (st1, best, queue)
    | (st1, some child) =>
      let st2 :=
        if st1.edges.any (fun e => e.source = parent.id ∧ e.target = child.id)
        then st1
        else connect st1 parent child i.name
      let nextRem := effParent - 1
      let childExtra := budget child.id
      let childAllowance := max nextRem childExtra
      if 0 < childAllowance ∧ (best child.id).getD (-1) < childAllowance then
        (st2, upd best child.id (some childAllowance),
         queue ++ [(child.id, childAllowance)])
      else (st2, best, queue)

/-- The Step-3 while loop, fuelled: dequeue `(id, rem)`, skip exhausted
or unknown items, compute `effParent = max(rem, own budget)`, and run the
per-input relaxation over the parent's inputs. -/
def bfsLoop (cat : Catalog)
    (choicesRecipe choicesBuilding : String → Option String)
    (budget : String → ℤ) :
    Nat → BuildSt → (String → Option ℤ) → List QItem → BuildSt
  | 0, st, _, _ => st
  | _ + 1, st, _, [] => st
  | fuel + 1, st, best, (id, rem) :: queue =>
    if rem ≤ 0 then bfsLoop cat choicesRecipe choicesBuilding budget fuel st best queue
    else
      match st.byKey id with
      | none => bfsLoop cat choicesRecipe choicesBuilding budget fuel st best queue
      | some parent =>
        let effParent := max rem (budget parent.id)
        let out := parent.inputs.foldl
          (bfsChildStep cat choicesRecipe choicesBuilding budget parent effParent)
          (st, best, queue)
        bfsLoop cat choicesRecipe choicesBuilding budget fuel out.1 out.2.1 out.2.2

/-- Seed the queue from every Step-1 node carrying a positive budget. -/
def seedQueue (budget : String → ℤ) (nodes : List GraphNode) :
    (String → Option ℤ) × List QItem :=
  nodes.foldl
    (fun acc n =>
      if 0 < budget n.id then
        (upd acc.1 n.id (some (budget n.id)), acc.2 ++ [(n.id, budget n.id)])
      else acc)
    (fun _ => none, [])

/-- The whole graph construction of `build()` for a non-empty target
list: Step 1 baseline, then the fuelled budget-driven expansion. -/
def buildRun (cat : Catalog)
    (choicesRecipe choicesBuilding : String → Option String)
    (budget : String → ℤ) (targets : List Target) (fuel : Nat) : BuildSt :=
  let st1 := targets.foldl (step1Target cat choicesRecipe choicesBuilding)
    BuildSt.empty
  let seeded := seedQueue budget st1.nodes
  bfsLoop cat choicesRecipe choicesBuilding budget fuel st1 seeded.1 seeded.2

/-- The planner store's state (the slice the core reads and writes). -/
structure PlannerState where
  targets : List Target
  choicesRecipe : String → Option String
  choicesBuilding : String → Option String
  expandedByNode : String → ℤ
  graphNodes : List GraphNode
  graphEdges : List GraphEdge
  totals : Totals

/-- Rebuild `build()`: empty targets clear the graph; otherwise the graph and
totals are recomputed wholesale from (targets, preferences, budgets). -/
def build (cat : Catalog) (fuel : Nat) (s : PlannerState) : PlannerState :=
  if s.targets.isEmpty then
    { s with graphNodes := [], graphEdges := [],
             totals := ⟨fun _ => 0, fun _ => 0⟩ }
  else
    let st := buildRun cat s.choicesRecipe s.choicesBuilding
      s.expandedByNode s.targets fuel
    { s with graphNodes := st.nodes, graphEdges := st.edges,
             totals := computeTotals cat st.nodes }

/-- Action `expandNodeOnce(nodeId)`: +1 hop for this node id only, then rebuild
(no presence check on the id). -/
def expandNodeOnce (cat : Catalog) (fuel : Nat) (nodeId : String)
    (s : PlannerState) : PlannerState :=
  let cur := s.expandedByNode nodeId
  build cat fuel { s with expandedByNode := upd s.expandedByNode nodeId (cur + 1) }

/-- Action `expandBranchBy(nodeId, hops)`: +max(1, hops) for this node id only,
then rebuild (no presence check on the id). -/
def expandBranchBy (cat : Catalog) (fuel : Nat) (nodeId : String) (hops : ℤ)
    (s : PlannerState) : PlannerState :=
  let cur := s.expandedByNode nodeId
  build cat fuel
    { s with expandedByNode := upd s.expandedByNode nodeId (cur + max 1 hops) }

/-- Action `swapNodeRecipe(nodeId, recipeId)`: no-op when the id is absent from
the current graph; otherwise set the sticky recipe (and, when the new
recipe exists and has a truthy building, the sticky building), migrate
the old id's budget to `product::recipeId` via max-merge, delete the old
key, and rebuild. -/
def swapNodeRecipe (cat : Catalog) (fuel : Nat) (nodeId recipeId : String)
    (s : PlannerState) : PlannerState :=
  match s.graphNodes.find? (fun n => n.id = nodeId) with
  | none => s
  | some node =>
    let list := productIndex cat node.product
    let building := (list.find? (fun r => r.recipeId = recipeId)).map
      (fun r => r.building)
    let prevBudget := s.expandedByNode nodeId
    let newId := nodeIdFor node.product recipeId
    let e1 :=
      if 0 < prevBudget then
        upd s.expandedByNode newId (max prevBudget (s.expandedByNode newId))
      else s.expandedByNode
    let e2 := upd e1 nodeId 0
    build cat fuel
      { s with
        choicesRecipe := upd s.choicesRecipe node.product (some recipeId)
        choicesBuilding :=
          match building with
          | some b => if b = "" then s.choicesBuilding
                      else upd s.choicesBuilding node.product (some b)
          | none => s.choicesBuilding
        expandedByNode := e2 }

/-! ### Concrete catalogs, nodes and states used in the theorems -/

def zeroRateRecipe : Recipe := ⟨"RZ", "Smelter", 4, [⟨"Ore", 3⟩], [⟨"Slag", 0⟩]⟩

/-- The Gear recipe of the spec's worked example: 1 Gear per 2-second
cycle from 2 Iron. -/
def gearRecipe : Recipe := ⟨"R1", "Assembler", 2, [⟨"Iron", 2⟩], [⟨"Gear", 1⟩]⟩

/-- A recipe whose first matching output has quantity 0 and whose second
output collides with the first under normalized-name matching. -/
def dupZeroRecipe : Recipe :=
  ⟨"RD", "Mill", 1, [], [⟨"Gear", 0⟩, ⟨"gear", 2⟩]⟩

def bldARecipe : Recipe := ⟨"RA", "BldA", 1, [], [⟨"Plate", 1⟩]⟩

def bldBRecipe : Recipe := ⟨"RB", "BldB", 1, [], [⟨"Plate", 1⟩]⟩

def bldCRecipe : Recipe := ⟨"RC", "BldC", 1, [], [⟨"Plate", 1⟩]⟩

/-- A three-recipe catalog for exercising every resolution branch. -/
def prefsCat : Catalog := [bldARecipe, bldBRecipe, bldCRecipe]

/-- A smelter recipe producing Iron, making Iron craftable. -/
def ironRecipe : Recipe := ⟨"RI", "Smelter", 1, [], [⟨"Iron", 1⟩]⟩

/-- Catalog in which Gear is crafted from craftable Iron. -/
def chainCat : Catalog := [gearRecipe, ironRecipe]

/-- The Gear root node at 60/min. -/
def gearNode : GraphNode := makeNode gearRecipe "Gear" 60 0

/-- A one-node build state holding the Gear root. -/
def gearSt : BuildSt :=
  ⟨[gearNode], [], fun k => if k = "Gear::R1" then some gearNode else none⟩

/-- A fully literal Gear node (the value `makeNode` produces for
`gearRecipe` at 60/min, written with evaluated fields). -/
def gearNodeLit : GraphNode :=
  ⟨"Gear::R1", "Gear", "R1", "Assembler", 2, 2, [⟨"Iron", 4⟩],
    [⟨"Gear", 60, true⟩], 0⟩

/-- A planner state whose current graph holds the literal Gear node and
a budget of 2 on it. -/
def swapState : PlannerState :=
  { targets := [⟨"Gear", 60, none⟩]
    choicesRecipe := fun _ => none
    choicesBuilding := fun _ => none
    expandedByNode := fun k => if k = "Gear::R1" then 2 else 0
    graphNodes := [gearNodeLit]
    graphEdges := []
    totals := ⟨fun _ => 0, fun _ => 0⟩ }

/-- An alternative Gear recipe in a different building. -/
def gearAltRecipe : Recipe := ⟨"R2", "Foundry", 1, [], [⟨"Gear", 1⟩]⟩

/-- A catalog with two competing Gear recipes (Iron stays raw). -/
def twoGearCat : Catalog := [gearRecipe, gearAltRecipe]

/-- Relation `Grows a b`: the build state `b` extends `a` — nodes and edges are
only ever appended. -/
def Grows (a b : BuildSt) : Prop :=
  a.nodes <+: b.nodes ∧ a.edges <+: b.edges

/-- Key coherence of a build state: the `byKey` map stores exactly the
materialized nodes under their ids, ids are the `product::recipeId`
strings, and no id repeats. -/
structure Inv (st : BuildSt) : Prop where
  mem_of_byKey : ∀ k n, st.byKey k = some n → n ∈ st.nodes ∧ n.id = k
  byKey_of_mem : ∀ n, n ∈ st.nodes → st.byKey n.id = some n
  idEq : ∀ n, n ∈ st.nodes → n.id = nodeIdFor n.product n.recipeId
  nodupIds : (st.nodes.map GraphNode.id).Nodup

/-- The Step-1 fold over a root's inputs, named for reasoning. -/
def step1ChildFold (cat : Catalog) (cr cb : String → Option String)
    (root : GraphNode) (inputs : List NodeIn) (acc : BuildSt) : BuildSt :=
  inputs.foldl
    (fun st i =>
      if productIndex cat i.name = [] then st
      else
        match ensureNode cat cr cb i.name i.ratePerMin 1
            (some root.building) st with
        | (st2, none) => st2
        | (st2, some child) => connect st2 root child i.name)
    acc

/-- A catalog with only the Gear recipe (Iron is raw). -/
def soloGearCat : Catalog := [gearRecipe]

/-- The initial planner state targeting Gear at 60/min. -/
def gearTargetState : PlannerState :=
  { targets := [⟨"Gear", 60, none⟩]
    choicesRecipe := fun _ => none
    choicesBuilding := fun _ => none
    expandedByNode := fun _ => 0
    graphNodes := []
    graphEdges := []
    totals := ⟨fun _ => 0, fun _ => 0⟩ }

/-- A planner state with no targets and no graph. -/
def emptyPlannerState : PlannerState :=
  { targets := []
    choicesRecipe := fun _ => none
    choicesBuilding := fun _ => none
    expandedByNode := fun _ => 0
    graphNodes := []
    graphEdges := []
    totals := ⟨fun _ => 0, fun _ => 0⟩ }

/-! ### Shared helper lemmas -/

/-- A list whose `countP` is 1 filters to a singleton, and `find?`
returns exactly that element. -/
lemma countP_one_filter {α : Type} (p : α → Bool) :
    ∀ l : List α, l.countP p = 1 →
      ∃ a, l.filter p = [a] ∧ l.find? p = some a := by
  intro l
  induction l with
  | nil => intro h; simp [List.countP_nil] at h
  | cons x xs ih =>
    intro h
    by_cases hx : p x
    · have hxs : xs.countP p = 0 := by
        have := h
        rw [List.countP_cons, if_pos hx] at this
        omega
      have hfil : xs.filter p = [] := by
        have hlen : (xs.filter p).length = 0 := by
          rw [← List.countP_eq_length_filter]
          exact hxs
        exact List.eq_nil_of_length_eq_zero hlen
      exact ⟨x, by simp [List.filter_cons, hx, hfil], by simp [List.find?, hx]⟩
    · have hxs : xs.countP p = 1 := by
        have := h
        rw [List.countP_cons, if_neg hx] at this
        omega
      obtain ⟨a, hfa, hna⟩ := ih hxs
      have hx' : p x = false := by simpa using hx
      exact ⟨a, by simp [List.filter_cons, hx', hfa],
        by simp [List.find?, hx', hna]⟩

/-- Filtering a mapped list filters the underlying list. -/
lemma filter_of_map {α β : Type} (f : α → β) (p : β → Bool) :
    ∀ l : List α, (l.map f).filter p = (l.filter (fun a => p (f a))).map f := by
  intro l
  induction l with
  | nil => simp
  | cons x xs ih =>
    by_cases hx : p (f x)
    · simp [List.filter_cons, hx, ih]
    · simp [List.filter_cons, hx, ih]

/-- Mapping a constant function yields a replicate. -/
lemma map_const_zero {α : Type} (f : α → ℚ) (l : List α)
    (h : ∀ a ∈ l, f a = 0) : l.map f = List.replicate l.length 0 := by
  induction l with
  | nil => simp
  | cons x xs ih =>
    simp only [List.map_cons, List.length_cons, List.replicate_succ]
    exact by rw [h x (by simp), ih (fun a ha => h a (List.mem_cons_of_mem _ ha))]

/-! ### C8 — zero or missing output rate clamps the node to zero -/

/-- C8: when the output-rate lookup for (recipe, product) yields 0 (no
normalized-name match, or a matched rate of 0), `makeNode` clamps
`runsPerMin` to 0 instead of dividing, and every input and output
`ratePerMin` of the node is 0; the division is never evaluated on a zero
denominator. -/
theorem makeNode_zero_rate_clamps (r : Recipe) (p : String) (req : ℚ)
    (d : Nat) (_ht : 0 < r.timeSec) (h : outputRatePerMin r p = 0) :
    (makeNode r p req d).runsPerMin = 0 ∧
    (makeNode r p req d).inputs.map NodeIn.ratePerMin =
      List.replicate r.inputs.length 0 ∧
    (makeNode r p req d).outputs.map NodeOut.ratePerMin =
      List.replicate r.outputs.length 0 := by
  refine ⟨?_, ?_, ?_⟩
  · simp [makeNode, h]
  · have heq : (makeNode r p req d).inputs =
        r.inputs.map (fun i => (⟨i.name, 0⟩ : NodeIn)) := by
      simp [makeNode, h]
    rw [heq, List.map_map]
    exact map_const_zero _ _ (fun a _ => rfl)
  · have heq : (makeNode r p req d).outputs =
        r.outputs.map (fun o => (⟨o.name, 0,
          decide (normName o.name = normName p)⟩ : NodeOut)) := by
      simp [makeNode, h]
    rw [heq, List.map_map]
    exact map_const_zero _ _ (fun a _ => rfl)

theorem makeNode_zero_rate_clamps_witness :
    (makeNode zeroRateRecipe "Slag" 60 0).runsPerMin = 0 ∧
    (makeNode zeroRateRecipe "Slag" 60 0).inputs.map NodeIn.ratePerMin =
      List.replicate zeroRateRecipe.inputs.length 0 ∧
    (makeNode zeroRateRecipe "Slag" 60 0).outputs.map NodeOut.ratePerMin =
      List.replicate zeroRateRecipe.outputs.length 0 :=
  makeNode_zero_rate_clamps zeroRateRecipe "Slag" 60 0
    (by norm_num [zeroRateRecipe])
    (by simp [outputRatePerMin, zeroRateRecipe, normName, jsTrim, jsToLower])

/-! ### C1 — the target output flag and its rate -/

/-- C1 counterexample: for `dupZeroRecipe` with target product `Gear`
and rate 60, the node's outputs carry TWO `isTarget = true` entries
(not exactly one), and the flagged entries' rates are 0, not 60. -/
theorem makeNode_target_flag_claim_false :
    ((makeNode dupZeroRecipe "Gear" 60 0).outputs.countP
      (fun o => o.isTarget)) = 2 ∧
    ((makeNode dupZeroRecipe "Gear" 60 0).outputs.filter
      (fun o => o.isTarget)).map NodeOut.ratePerMin = [(0 : ℚ), 0] := by
  constructor
  · with_unfolding_all decide
  · with_unfolding_all decide

/-- C1 (amended): provided exactly one of R's outputs matches the target
product under normalized-name equality and the looked-up output rate is
nonzero, the node built for (R, product, r) has exactly one output entry
flagged `isTarget = true`, that entry's `ratePerMin` is exactly `r`, and
(by the count) all other entries are flagged false. -/
theorem makeNode_target_flag_unique (r : Recipe) (p : String) (req : ℚ)
    (d : Nat)
    (huniq : r.outputs.countP (fun o => normName o.name = normName p) = 1)
    (hrate : outputRatePerMin r p ≠ 0) :
    ((makeNode r p req d).outputs.countP (fun o => o.isTarget)) = 1 ∧
    ((makeNode r p req d).outputs.filter (fun o => o.isTarget)).map
      NodeOut.ratePerMin = [req] := by
  obtain ⟨o₀, hfil, hfind⟩ := countP_one_filter
    (fun o => decide (normName o.name = normName p)) r.outputs huniq
  have hrate_eq : outputRatePerMin r p = o₀.qtyPerCycle / r.timeSec * 60 := by
    rw [outputRatePerMin, hfind]
  have houts : (makeNode r p req d).outputs = r.outputs.map (fun o =>
      (⟨o.name, (req / outputRatePerMin r p) * (o.qtyPerCycle / r.timeSec) * 60,
        decide (normName o.name = normName p)⟩ : NodeOut)) := by
    simp [makeNode, hrate]
  constructor
  · rw [houts, List.countP_map]
    exact huniq
  · rw [houts, filter_of_map]
    have hpred : (fun o : IOEntry =>
        ((⟨o.name, req / outputRatePerMin r p * (o.qtyPerCycle / r.timeSec) * 60,
          decide (normName o.name = normName p)⟩ : NodeOut)).isTarget) =
        (fun o : IOEntry => decide (normName o.name = normName p)) := rfl
    rw [hpred, hfil]
    have hq : o₀.qtyPerCycle / r.timeSec * 60 ≠ 0 := by
      rw [← hrate_eq]; exact hrate
    simp only [List.map_cons, List.map_nil, List.cons.injEq, and_true]
    show req / outputRatePerMin r p * (o₀.qtyPerCycle / r.timeSec) * 60 = req
    rw [hrate_eq]
    have hstep : req / (o₀.qtyPerCycle / r.timeSec * 60) *
        (o₀.qtyPerCycle / r.timeSec) * 60 =
        req / (o₀.qtyPerCycle / r.timeSec * 60) *
        (o₀.qtyPerCycle / r.timeSec * 60) := by ring
    rw [hstep, div_mul_cancel₀ _ hq]

theorem makeNode_target_flag_unique_witness :
    ((makeNode gearRecipe "Gear" 60 0).outputs.countP
      (fun o => o.isTarget)) = 1 ∧
    ((makeNode gearRecipe "Gear" 60 0).outputs.filter
      (fun o => o.isTarget)).map NodeOut.ratePerMin = [(60 : ℚ)] :=
  makeNode_target_flag_unique gearRecipe "Gear" 60 0
    (by simp [gearRecipe, normName, jsTrim, jsToLower, List.countP,
      List.countP.go])
    (by simp [outputRatePerMin, gearRecipe, normName, jsTrim, jsToLower])

/-! ### C5 — the four-step preference resolution order -/

/-- Resolution fails exactly on an empty product list. -/
lemma pickRecipeWithPrefs_none_iff (cat : Catalog) (product : String)
    (er pb parent : Option String) :
    pickRecipeWithPrefs cat product er pb parent = none ↔
      productIndex cat product = [] := by
  constructor
  · intro hnone
    by_contra hne
    have hhead : ∃ r, (productIndex cat product).head? = some r := by
      cases hl : productIndex cat product with
      | nil => exact absurd hl hne
      | cons a l => exact ⟨a, by simp⟩
    obtain ⟨r, hr⟩ := hhead
    simp only [pickRecipeWithPrefs] at hnone
    cases h1 : pickStep (productIndex cat product) er
        (fun e x => x.recipeId = e) with
    | some r1 => rw [h1] at hnone; exact absurd hnone (by simp)
    | none =>
      rw [h1] at hnone
      cases h2 : pickStep (productIndex cat product) parent
          (fun b x => x.building = b) with
      | some r2 => rw [h2] at hnone; exact absurd hnone (by simp)
      | none =>
        rw [h2] at hnone
        cases h3 : pickStep (productIndex cat product) pb
            (fun b x => x.building = b) with
        | some r3 => rw [h3] at hnone; exact absurd hnone (by simp)
        | none => rw [h3, hr] at hnone; exact absurd hnone (by simp)
  · intro hempty
    have hstep : ∀ (o : Option String) (t : String → Recipe → Bool),
        pickStep (productIndex cat product) o t = none := by
      intro o t
      cases o with
      | none => rfl
      | some v =>
        by_cases hv : v = ""
        · simp [pickStep, hv]
        · simp [pickStep, hv, hempty]
    simp only [pickRecipeWithPrefs]
    rw [hstep er _, hstep parent _, hstep pb _, hempty]
    rfl

/-- A resolved recipe always comes from the product's list. -/
lemma pickRecipeWithPrefs_mem (cat : Catalog) (product : String)
    (er pb parent : Option String) (r : Recipe)
    (h : pickRecipeWithPrefs cat product er pb parent = some r) :
    r ∈ productIndex cat product := by
  have hstep : ∀ (o : Option String) (t : String → Recipe → Bool) (r' : Recipe),
      pickStep (productIndex cat product) o t = some r' →
      r' ∈ productIndex cat product := by
    intro o t r' ho
    cases o with
    | none => exact Option.noConfusion ho
    | some v =>
      by_cases hv : v = ""
      · simp [pickStep, hv] at ho
      · simp only [pickStep, if_neg hv] at ho
        exact List.mem_of_find?_eq_some ho
  simp only [pickRecipeWithPrefs] at h
  cases h1 : pickStep (productIndex cat product) er
      (fun e x => x.recipeId = e) with
  | some r1 =>
    rw [h1] at h
    cases h
    exact hstep _ _ _ h1
  | none =>
    rw [h1] at h
    cases h2 : pickStep (productIndex cat product) parent
        (fun b x => x.building = b) with
    | some r2 =>
      rw [h2] at h
      cases h
      exact hstep _ _ _ h2
    | none =>
      rw [h2] at h
      cases h3 : pickStep (productIndex cat product) pb
          (fun b x => x.building = b) with
      | some r3 =>
        rw [h3] at h
        cases h
        exact hstep _ _ _ h3
      | none =>
        rw [h3] at h
        dsimp only at h
        exact List.mem_of_mem_head? (by simp [Option.mem_def, h])

/-- C5: resolution returns, first match winning: (1) the recipe named by
a truthy explicit id when it occurs in the product's list; (2) otherwise
the first listed recipe whose building is the (truthy) parent building;
(3) otherwise the first whose building is the (truthy) sticky preferred
building; (4) otherwise the first recipe in catalog order; and it
returns `none` exactly when the product's list is empty. -/
theorem pickRecipeWithPrefs_order (cat : Catalog) (product : String)
    (er pb parent : Option String) :
    (∀ e r', er = some e → e ≠ "" →
      (productIndex cat product).find? (fun x => x.recipeId = e) = some r' →
      pickRecipeWithPrefs cat product er pb parent = some r') ∧
    (∀ b r', pickStep (productIndex cat product) er
        (fun e x => x.recipeId = e) = none →
      parent = some b → b ≠ "" →
      (productIndex cat product).find? (fun x => x.building = b) = some r' →
      pickRecipeWithPrefs cat product er pb parent = some r') ∧
    (∀ b r', pickStep (productIndex cat product) er
        (fun e x => x.recipeId = e) = none →
      pickStep (productIndex cat product) parent
        (fun b x => x.building = b) = none →
      pb = some b → b ≠ "" →
      (productIndex cat product).find? (fun x => x.building = b) = some r' →
      pickRecipeWithPrefs cat product er pb parent = some r') ∧
    (pickStep (productIndex cat product) er
        (fun e x => x.recipeId = e) = none →
      pickStep (productIndex cat product) parent
        (fun b x => x.building = b) = none →
      pickStep (productIndex cat product) pb
        (fun b x => x.building = b) = none →
      pickRecipeWithPrefs cat product er pb parent =
        (productIndex cat product).head?) ∧
    (pickRecipeWithPrefs cat product er pb parent = none ↔
      productIndex cat product = []) := by
  refine ⟨?_, ?_, ?_, ?_, ?_⟩
  · intro e r' he hne hfind
    simp [pickRecipeWithPrefs, pickStep, he, hne, hfind]
  · intro b r' hskip hb hbne hfind
    simp [pickRecipeWithPrefs, pickStep, hb, hbne, hfind] at hskip ⊢
    rw [hskip]
  · intro b r' hskip1 hskip2 hb hbne hfind
    simp [pickRecipeWithPrefs, pickStep, hb, hbne, hfind] at hskip1 hskip2 ⊢
    rw [hskip1]
    cases parent with
    | none => simp
    | some q =>
      by_cases hq : q = ""
      · simp [hq]
      · simp [hq] at hskip2
        have hnq : List.find? (fun x => decide (x.building = q))
            (productIndex cat product) = none :=
          List.find?_eq_none.mpr (by simpa using hskip2)
        simp [hq, hnq]
  · intro hskip1 hskip2 hskip3
    simp only [pickRecipeWithPrefs]
    rw [hskip1, hskip2, hskip3]
  · exact pickRecipeWithPrefs_none_iff cat product er pb parent

theorem pickRecipeWithPrefs_order_witness :
    pickRecipeWithPrefs prefsCat "Plate" (some "RB") none none =
      some bldBRecipe ∧
    pickRecipeWithPrefs prefsCat "Plate" none none (some "BldC") =
      some bldCRecipe ∧
    pickRecipeWithPrefs prefsCat "Plate" none (some "BldB") none =
      some bldBRecipe ∧
    pickRecipeWithPrefs prefsCat "Plate" none none none = some bldARecipe ∧
    (pickRecipeWithPrefs prefsCat "Nothing" none none none = none ↔
      productIndex prefsCat "Nothing" = []) := by
  refine ⟨?_, ?_, ?_, ?_,
    (pickRecipeWithPrefs_order prefsCat "Nothing" none none none).2.2.2.2⟩
  · exact (pickRecipeWithPrefs_order prefsCat "Plate" (some "RB") none
      none).1 "RB" bldBRecipe rfl (by decide)
      (by simp [productIndex, prefsCat, bldARecipe, bldBRecipe, bldCRecipe,
        jsTrim])
  · exact (pickRecipeWithPrefs_order prefsCat "Plate" none none
      (some "BldC")).2.1 "BldC" bldCRecipe (by rfl) rfl (by decide)
      (by simp [productIndex, prefsCat, bldARecipe, bldBRecipe, bldCRecipe,
        jsTrim])
  · exact (pickRecipeWithPrefs_order prefsCat "Plate" none (some "BldB")
      none).2.2.1 "BldB" bldBRecipe (by rfl) (by rfl) rfl (by decide)
      (by simp [productIndex, prefsCat, bldARecipe, bldBRecipe, bldCRecipe,
        jsTrim])
  · have := (pickRecipeWithPrefs_order prefsCat "Plate" none none
      none).2.2.2.1 (by rfl) (by rfl) (by rfl)
    rw [this]
    simp [productIndex, prefsCat, bldARecipe, bldBRecipe, bldCRecipe, jsTrim]

/-! ### C2 — budget-driven expansion: effective remaining and relaxation -/

/-- C2: for a dequeued item `(id, rem)` with `rem > 0` whose node is
known, one loop iteration processes the node's inputs with effective
remaining `max(rem, own stored budget)`; for a craftable input resolving
to `child`, the recorded allowance and queue are updated exactly when the
allowance `max(effective remaining - 1, child's own stored budget)` is
positive and strictly greater than any previously recorded allowance for
that child (an unrecorded child counts as `-1`); and every queue
extension is such a strict improvement, so an iteration that improves no
allowance enqueues nothing. -/
theorem bfsLoop_relaxation_step (cat : Catalog)
    (cr cb : String → Option String) (budget : String → ℤ) :
    (∀ fuel st best q id rem parent, 0 < rem → st.byKey id = some parent →
      bfsLoop cat cr cb budget (fuel + 1) st best ((id, rem) :: q) =
        (let out := parent.inputs.foldl
          (bfsChildStep cat cr cb budget parent (max rem (budget parent.id)))
          (st, best, q)
         bfsLoop cat cr cb budget fuel out.1 out.2.1 out.2.2)) ∧
    (∀ parent eff st best q i st1 child,
      productIndex cat i.name ≠ [] →
      ensureNode cat cr cb i.name i.ratePerMin (parent.depth + 1)
        (some parent.building) st = (st1, some child) →
      (bfsChildStep cat cr cb budget parent eff (st, best, q) i).2 =
        (if 0 < max (eff - 1) (budget child.id) ∧
            (best child.id).getD (-1) < max (eff - 1) (budget child.id)
         then (upd best child.id (some (max (eff - 1) (budget child.id))),
               q ++ [(child.id, max (eff - 1) (budget child.id))])
         else (best, q))) ∧
    (∀ (b : Option ℤ) (A : ℤ), 0 < A →
      ((b.getD (-1) < A) ↔ ∀ prev, b = some prev → prev < A)) ∧
    (∀ parent eff acc i,
      (bfsChildStep cat cr cb budget parent eff acc i).2.2 = acc.2.2 ∨
      ∃ cid a,
        (bfsChildStep cat cr cb budget parent eff acc i).2.2 =
          acc.2.2 ++ [(cid, a)] ∧
        (bfsChildStep cat cr cb budget parent eff acc i).2.1 cid = some a ∧
        0 < a ∧ (acc.2.1 cid).getD (-1) < a) := by
  refine ⟨?_, ?_, ?_, ?_⟩
  · intro fuel st best q id rem parent hrem hpar
    simp only [bfsLoop]
    rw [if_neg (by omega), hpar]
  · intro parent eff st best q i st1 child hraw hens
    simp only [bfsChildStep]
    rw [if_neg hraw, hens]
    dsimp only
    by_cases hcond : 0 < max (eff - 1) (budget child.id) ∧
        (best child.id).getD (-1) < max (eff - 1) (budget child.id)
    · rw [if_pos hcond, if_pos hcond]
    · rw [if_neg hcond, if_neg hcond]
  · intro b A hA
    cases b with
    | none => simp; omega
    | some prev => simp
  · intro parent eff acc i
    obtain ⟨st, best, q⟩ := acc
    simp only [bfsChildStep]
    by_cases hraw : productIndex cat i.name = []
    · rw [if_pos hraw]; left; rfl
    · rw [if_neg hraw]
      cases hens : ensureNode cat cr cb i.name i.ratePerMin
          (parent.depth + 1) (some parent.building) st with
      | mk st1 oc =>
        cases oc with
        | none => left; rfl
        | some child =>
          dsimp only
          by_cases hcond : 0 < max (eff - 1) (budget child.id) ∧
              (best child.id).getD (-1) < max (eff - 1) (budget child.id)
          · rw [if_pos hcond]
            right
            exact ⟨child.id, max (eff - 1) (budget child.id), rfl,
              by simp [upd], hcond.1, hcond.2⟩
          · rw [if_neg hcond]; left; rfl

theorem bfsLoop_relaxation_step_witness :
    (bfsLoop chainCat (fun _ => none) (fun _ => none)
        (fun k => if k = "Gear::R1" then 2 else 0) 1 gearSt (fun _ => none)
        [("Gear::R1", 2)] =
      (let out := gearNode.inputs.foldl
        (bfsChildStep chainCat (fun _ => none) (fun _ => none)
          (fun k => if k = "Gear::R1" then 2 else 0) gearNode
          (max 2 ((fun k : String => if k = "Gear::R1" then (2:ℤ) else 0)
            gearNode.id)))
        (gearSt, fun _ => none, [])
       bfsLoop chainCat (fun _ => none) (fun _ => none)
        (fun k => if k = "Gear::R1" then 2 else 0) 0 out.1 out.2.1
        out.2.2)) ∧
    ((Option.none.getD (-1) < (1:ℤ)) ↔
      ∀ prev : ℤ, (none : Option ℤ) = some prev → prev < 1) := by
  constructor
  · exact (bfsLoop_relaxation_step chainCat (fun _ => none) (fun _ => none)
      (fun k => if k = "Gear::R1" then 2 else 0)).1 0 gearSt (fun _ => none)
      [] "Gear::R1" 2 gearNode (by omega)
      (by simp [gearSt])
  · exact (bfsLoop_relaxation_step chainCat (fun _ => none) (fun _ => none)
      (fun k => if k = "Gear::R1" then 2 else 0)).2.2.1 none 1 (by omega)

/-! ### C10 — swapping to a recipe id that does not produce the product -/

/-- The action `build` only overwrites the graph and totals: targets, preferences
and budgets pass through unchanged. -/
lemma build_fields (cat : Catalog) (fuel : Nat) (s : PlannerState) :
    (build cat fuel s).targets = s.targets ∧
    (build cat fuel s).choicesRecipe = s.choicesRecipe ∧
    (build cat fuel s).choicesBuilding = s.choicesBuilding ∧
    (build cat fuel s).expandedByNode = s.expandedByNode := by
  unfold build
  split <;> exact ⟨rfl, rfl, rfl, rfl⟩

/-- C10: `swapNodeRecipe` with a recipe id that names no recipe
producing the node's product is not rejected: it still records the
unproducible id as the sticky recipe choice, zeroes the old node id's
budget key (migrating a positive budget to `product::recipeId`), leaves
the building preference unchanged, and subsequent resolution with the
failing explicit choice falls through exactly as if no explicit choice
were set. -/
theorem swapNodeRecipe_unproducible (cat : Catalog) (fuel : Nat)
    (s : PlannerState) (nodeId rid : String) (node : GraphNode)
    (hfind : s.graphNodes.find? (fun n => n.id = nodeId) = some node)
    (hno : (productIndex cat node.product).find?
      (fun r => r.recipeId = rid) = none)
    (hid : nodeIdFor node.product rid ≠ nodeId) :
    (swapNodeRecipe cat fuel nodeId rid s).choicesRecipe node.product =
      some rid ∧
    (swapNodeRecipe cat fuel nodeId rid s).choicesBuilding =
      s.choicesBuilding ∧
    (swapNodeRecipe cat fuel nodeId rid s).expandedByNode nodeId = 0 ∧
    (0 < s.expandedByNode nodeId →
      (swapNodeRecipe cat fuel nodeId rid s).expandedByNode
          (nodeIdFor node.product rid) =
        max (s.expandedByNode nodeId)
          (s.expandedByNode (nodeIdFor node.product rid))) ∧
    (∀ pb, pickRecipeWithPrefs cat node.product (some rid)
        (s.choicesBuilding node.product) pb =
      pickRecipeWithPrefs cat node.product none
        (s.choicesBuilding node.product) pb) := by
  have hswap : swapNodeRecipe cat fuel nodeId rid s =
      build cat fuel
        { s with
          choicesRecipe := upd s.choicesRecipe node.product (some rid)
          expandedByNode :=
            upd (if 0 < s.expandedByNode nodeId then
                upd s.expandedByNode (nodeIdFor node.product rid)
                  (max (s.expandedByNode nodeId)
                    (s.expandedByNode (nodeIdFor node.product rid)))
              else s.expandedByNode) nodeId 0 } := by
    unfold swapNodeRecipe
    rw [hfind]
    dsimp only
    rw [hno]
    rfl
  refine ⟨?_, ?_, ?_, ?_, ?_⟩
  · rw [hswap, (build_fields _ _ _).2.1]
    simp [upd]
  · rw [hswap, (build_fields _ _ _).2.2.1]
  · rw [hswap, (build_fields _ _ _).2.2.2]
    simp [upd]
  · intro hpos
    rw [hswap, (build_fields _ _ _).2.2.2]
    simp [upd, hid, hpos]
  · intro pb
    by_cases hrid : rid = ""
    · simp [pickRecipeWithPrefs, pickStep, hrid]
    · simp [pickRecipeWithPrefs, pickStep, hrid, hno]

theorem swapNodeRecipe_unproducible_witness :
    (swapNodeRecipe chainCat 5 "Gear::R1" "BOGUS" swapState).choicesRecipe
        "Gear" = some "BOGUS" ∧
    (swapNodeRecipe chainCat 5 "Gear::R1" "BOGUS"
        swapState).choicesBuilding = swapState.choicesBuilding ∧
    (swapNodeRecipe chainCat 5 "Gear::R1" "BOGUS" swapState).expandedByNode
        "Gear::R1" = 0 ∧
    (0 < swapState.expandedByNode "Gear::R1" →
      (swapNodeRecipe chainCat 5 "Gear::R1" "BOGUS"
          swapState).expandedByNode (nodeIdFor "Gear" "BOGUS") =
        max (swapState.expandedByNode "Gear::R1")
          (swapState.expandedByNode (nodeIdFor "Gear" "BOGUS"))) ∧
    (∀ pb, pickRecipeWithPrefs chainCat "Gear" (some "BOGUS")
        (swapState.choicesBuilding "Gear") pb =
      pickRecipeWithPrefs chainCat "Gear" none
        (swapState.choicesBuilding "Gear") pb) := by
  have h := swapNodeRecipe_unproducible chainCat 5 swapState "Gear::R1"
    "BOGUS" gearNodeLit
    (by simp [swapState, gearNodeLit, List.find?])
    (by decide)
    (by decide)
  simpa [gearNodeLit, swapState] using h

/-! ### C7 — swap and swap back: identity and budget restoration -/

/-- When the swapped node is found, the sticky recipe choice after the
swap is the new id, keyed by the node's product. -/
lemma swapNodeRecipe_found_choicesRecipe (cat : Catalog) (fuel : Nat)
    (nodeId rid : String) (s : PlannerState) (node : GraphNode)
    (hfind : s.graphNodes.find? (fun n => n.id = nodeId) = some node) :
    (swapNodeRecipe cat fuel nodeId rid s).choicesRecipe =
      upd s.choicesRecipe node.product (some rid) := by
  unfold swapNodeRecipe
  rw [hfind]
  dsimp only
  rw [(build_fields _ _ _).2.1]

/-- When the swapped node is found, the budget map after the swap is the
max-merge migration onto `product::recipeId` followed by deletion of the
old key. -/
lemma swapNodeRecipe_found_budget (cat : Catalog) (fuel : Nat)
    (nodeId rid : String) (s : PlannerState) (node : GraphNode)
    (hfind : s.graphNodes.find? (fun n => n.id = nodeId) = some node) :
    (swapNodeRecipe cat fuel nodeId rid s).expandedByNode =
      upd (if 0 < s.expandedByNode nodeId then
          upd s.expandedByNode (nodeIdFor node.product rid)
            (max (s.expandedByNode nodeId)
              (s.expandedByNode (nodeIdFor node.product rid)))
        else s.expandedByNode) nodeId 0 := by
  unfold swapNodeRecipe
  rw [hfind]
  dsimp only
  rw [(build_fields _ _ _).2.2.2]

/-- C7: starting from a node with a positive stored budget, swapping its
recipe to a different identity and then swapping the new node back to
the original recipe re-derives the original node id
(`product::originalRecipeId`), re-installs the original recipe as the
sticky choice, and leaves the original id's stored budget at least its
pre-swap value, because each swap max-merges the migrated budget and
deletes only the old key. -/
theorem swapNodeRecipe_roundtrip (cat : Catalog) (fuel : Nat)
    (s : PlannerState) (nodeId newRid : String) (node n' : GraphNode)
    (hfind : s.graphNodes.find? (fun n => n.id = nodeId) = some node)
    (hb : 0 < s.expandedByNode nodeId)
    (hidOrig : nodeIdFor node.product node.recipeId = nodeId)
    (hnewne : nodeIdFor node.product newRid ≠ nodeId)
    (hfind2 : (swapNodeRecipe cat fuel nodeId newRid s).graphNodes.find?
      (fun n => n.id = nodeIdFor node.product newRid) = some n')
    (hprod2 : n'.product = node.product) :
    nodeIdFor n'.product node.recipeId = nodeId ∧
    (swapNodeRecipe cat fuel (nodeIdFor node.product newRid) node.recipeId
        (swapNodeRecipe cat fuel nodeId newRid s)).choicesRecipe
      node.product = some node.recipeId ∧
    s.expandedByNode nodeId ≤
      (swapNodeRecipe cat fuel (nodeIdFor node.product newRid)
        node.recipeId
        (swapNodeRecipe cat fuel nodeId newRid s)).expandedByNode nodeId := by
  set s1 := swapNodeRecipe cat fuel nodeId newRid s with hs1
  have hid2 : nodeIdFor n'.product node.recipeId = nodeId := by
    rw [hprod2, hidOrig]
  have hbud1 : s1.expandedByNode =
      upd (upd s.expandedByNode (nodeIdFor node.product newRid)
          (max (s.expandedByNode nodeId)
            (s.expandedByNode (nodeIdFor node.product newRid))))
        nodeId 0 := by
    rw [hs1, swapNodeRecipe_found_budget cat fuel nodeId newRid s node hfind,
      if_pos hb]
  have hprev2 : s1.expandedByNode (nodeIdFor node.product newRid) =
      max (s.expandedByNode nodeId)
        (s.expandedByNode (nodeIdFor node.product newRid)) := by
    rw [hbud1]
    simp [upd, hnewne]
  have hprev2pos : 0 < s1.expandedByNode (nodeIdFor node.product newRid) := by
    rw [hprev2]
    exact lt_max_of_lt_left hb
  refine ⟨hid2, ?_, ?_⟩
  · rw [swapNodeRecipe_found_choicesRecipe cat fuel _ _ s1 n' hfind2, hprod2]
    simp [upd]
  · rw [swapNodeRecipe_found_budget cat fuel _ _ s1 n' hfind2,
      if_pos hprev2pos, hid2]
    have hnodeIdne : nodeId ≠ nodeIdFor node.product newRid :=
      fun h => hnewne h.symm
    simp only [upd, if_neg hnodeIdne, if_true, hbud1]
    rw [if_neg hnewne]
    exact le_trans (le_max_left _ _) (le_max_left _ _)

theorem swapNodeRecipe_roundtrip_witness :
    nodeIdFor "Gear" "R1" = "Gear::R1" ∧
    (swapNodeRecipe twoGearCat 3 (nodeIdFor "Gear" "R2") "R1"
        (swapNodeRecipe twoGearCat 3 "Gear::R1" "R2"
          swapState)).choicesRecipe "Gear" = some "R1" ∧
    swapState.expandedByNode "Gear::R1" ≤
      (swapNodeRecipe twoGearCat 3 (nodeIdFor "Gear" "R2") "R1"
        (swapNodeRecipe twoGearCat 3 "Gear::R1" "R2"
          swapState)).expandedByNode "Gear::R1" :=
  swapNodeRecipe_roundtrip twoGearCat 3 swapState "Gear::R1" "R2"
    gearNodeLit (makeNode gearAltRecipe "Gear" 60 0)
    (by simp [swapState, gearNodeLit, List.find?])
    (by simp [swapState])
    (by decide)
    (by decide)
    rfl
    rfl

/-! ### Structural facts about the builder: growth and key coherence -/

lemma Grows.refl (a : BuildSt) : Grows a a :=
  ⟨List.prefix_refl _, List.prefix_refl _⟩

lemma Grows.trans {a b c : BuildSt} (h1 : Grows a b) (h2 : Grows b c) :
    Grows a c :=
  ⟨h1.1.trans h2.1, h1.2.trans h2.2⟩

lemma ensureNode_grows (cat : Catalog) (cr cb : String → Option String)
    (product : String) (req : ℚ) (depth : Nat) (pb : Option String)
    (st : BuildSt) :
    Grows st (ensureNode cat cr cb product req depth pb st).1 := by
  unfold ensureNode
  cases pickRecipeWithPrefs cat product (cr product) (cb product) pb with
  | none => exact Grows.refl st
  | some r =>
    dsimp only
    cases st.byKey (nodeIdFor product r.recipeId) with
    | some n => exact Grows.refl st
    | none => exact ⟨⟨_, rfl⟩, List.prefix_refl _⟩

lemma connect_grows (st : BuildSt) (p c : GraphNode) (label : String) :
    Grows st (connect st p c label) :=
  ⟨List.prefix_refl _, ⟨_, rfl⟩⟩

lemma bfsChildStep_grows (cat : Catalog) (cr cb : String → Option String)
    (budget : String → ℤ) (parent : GraphNode) (eff : ℤ)
    (acc : BuildSt × (String → Option ℤ) × List QItem) (i : NodeIn) :
    Grows acc.1 (bfsChildStep cat cr cb budget parent eff acc i).1 := by
  obtain ⟨st, best, q⟩ := acc
  simp only [bfsChildStep]
  by_cases hraw : productIndex cat i.name = []
  · rw [if_pos hraw]; exact Grows.refl st
  · rw [if_neg hraw]
    have hg := ensureNode_grows cat cr cb i.name i.ratePerMin
      (parent.depth + 1) (some parent.building) st
    cases hens : ensureNode cat cr cb i.name i.ratePerMin
        (parent.depth + 1) (some parent.building) st with
    | mk st1 oc =>
      rw [hens] at hg
      cases oc with
      | none => exact hg
      | some child =>
        dsimp only
        by_cases hedge : (st1.edges.any
            (fun e => decide (e.source = parent.id ∧ e.target = child.id))) = true
        · rw [if_pos hedge]
          by_cases hcond : 0 < max (eff - 1) (budget child.id) ∧
              (best child.id).getD (-1) < max (eff - 1) (budget child.id)
          · rw [if_pos hcond]; exact hg
          · rw [if_neg hcond]; exact hg
        · rw [if_neg hedge]
          by_cases hcond : 0 < max (eff - 1) (budget child.id) ∧
              (best child.id).getD (-1) < max (eff - 1) (budget child.id)
          · rw [if_pos hcond]
            exact hg.trans (connect_grows st1 parent child i.name)
          · rw [if_neg hcond]
            exact hg.trans (connect_grows st1 parent child i.name)

lemma foldl_bfsChildStep_grows (cat : Catalog)
    (cr cb : String → Option String) (budget : String → ℤ)
    (parent : GraphNode) (eff : ℤ) (inputs : List NodeIn) :
    ∀ acc : BuildSt × (String → Option ℤ) × List QItem,
      Grows acc.1 (inputs.foldl
        (bfsChildStep cat cr cb budget parent eff) acc).1 := by
  induction inputs with
  | nil => intro acc; exact Grows.refl _
  | cons i rest ih =>
    intro acc
    simp only [List.foldl_cons]
    exact (bfsChildStep_grows cat cr cb budget parent eff acc i).trans
      (ih _)

lemma bfsLoop_grows (cat : Catalog) (cr cb : String → Option String)
    (budget : String → ℤ) :
    ∀ (fuel : Nat) (st : BuildSt) (best : String → Option ℤ)
      (q : List QItem), Grows st (bfsLoop cat cr cb budget fuel st best q) := by
  intro fuel
  induction fuel with
  | zero => intro st best q; exact Grows.refl st
  | succ n ih =>
    intro st best q
    cases q with
    | nil => exact Grows.refl st
    | cons item rest =>
      obtain ⟨id, rem⟩ := item
      simp only [bfsLoop]
      by_cases hrem : rem ≤ 0
      · rw [if_pos hrem]; exact ih st best rest
      · rw [if_neg hrem]
        cases hk : st.byKey id with
        | none => exact ih st best rest
        | some parent =>
          dsimp only
          exact (foldl_bfsChildStep_grows cat cr cb budget parent
            (max rem (budget parent.id)) parent.inputs
            (st, best, rest)).trans (ih _ _ _)

lemma Inv.empty : Inv BuildSt.empty := by
  refine ⟨?_, ?_, ?_, ?_⟩ <;> simp [BuildSt.empty]

lemma ensureNode_inv (cat : Catalog) (cr cb : String → Option String)
    (product : String) (req : ℚ) (depth : Nat) (pb : Option String)
    (st : BuildSt) (hinv : Inv st) :
    Inv (ensureNode cat cr cb product req depth pb st).1 ∧
    (∀ n, (ensureNode cat cr cb product req depth pb st).2 = some n →
      n ∈ (ensureNode cat cr cb product req depth pb st).1.nodes) := by
  unfold ensureNode
  cases hpick : pickRecipeWithPrefs cat product (cr product) (cb product) pb with
  | none => exact ⟨hinv, by simp⟩
  | some r =>
    dsimp only
    cases hk : st.byKey (nodeIdFor product r.recipeId) with
    | some n =>
      refine ⟨hinv, ?_⟩
      intro m hm
      cases hm
      exact (hinv.mem_of_byKey _ _ hk).1
    | none =>
      have hfresh : ∀ m ∈ st.nodes, m.id ≠ nodeIdFor product r.recipeId := by
        intro m hm heq
        have := hinv.byKey_of_mem m hm
        rw [heq, hk] at this
        exact Option.noConfusion this
      have hidnew : (makeNode r product req depth).id =
          nodeIdFor product r.recipeId := rfl
      refine ⟨⟨?_, ?_, ?_, ?_⟩, ?_⟩
      · intro k n hkn
        simp only [upd] at hkn
        by_cases hkk : k = nodeIdFor product r.recipeId
        · rw [if_pos hkk] at hkn
          cases hkn
          exact ⟨by simp, by rw [hidnew, hkk]⟩
        · rw [if_neg hkk] at hkn
          obtain ⟨hmem, hid⟩ := hinv.mem_of_byKey _ _ hkn
          exact ⟨by simp [hmem], hid⟩
      · intro n hn
        simp only [List.mem_append, List.mem_singleton] at hn
        simp only [upd]
        cases hn with
        | inl hn =>
          rw [if_neg (hfresh n hn)]
          exact hinv.byKey_of_mem n hn
        | inr hn =>
          subst hn
          rw [hidnew, if_pos rfl]
      · intro n hn
        simp only [List.mem_append, List.mem_singleton] at hn
        cases hn with
        | inl hn => exact hinv.idEq n hn
        | inr hn => subst hn; rfl
      · rw [List.map_append]
        simp only [List.map_cons, List.map_nil]
        rw [List.nodup_append]
        refine ⟨hinv.nodupIds, List.nodup_singleton _, ?_⟩
        intro a ha hb
        simp only [List.mem_singleton] at hb
        subst hb
        obtain ⟨m, hm, hma⟩ := List.mem_map.mp ha
        exact hfresh m hm (by rw [hma, hidnew])
      · intro n hn
        cases hn
        simp

lemma connect_inv (st : BuildSt) (p c : GraphNode) (label : String)
    (hinv : Inv st) : Inv (connect st p c label) :=
  ⟨hinv.mem_of_byKey, hinv.byKey_of_mem, hinv.idEq, hinv.nodupIds⟩

lemma bfsChildStep_inv (cat : Catalog) (cr cb : String → Option String)
    (budget : String → ℤ) (parent : GraphNode) (eff : ℤ)
    (acc : BuildSt × (String → Option ℤ) × List QItem) (i : NodeIn)
    (hinv : Inv acc.1) :
    Inv (bfsChildStep cat cr cb budget parent eff acc i).1 := by
  obtain ⟨st, best, q⟩ := acc
  simp only [bfsChildStep]
  by_cases hraw : productIndex cat i.name = []
  · rw [if_pos hraw]; exact hinv
  · rw [if_neg hraw]
    have hei := (ensureNode_inv cat cr cb i.name i.ratePerMin
      (parent.depth + 1) (some parent.building) st hinv).1
    cases hens : ensureNode cat cr cb i.name i.ratePerMin
        (parent.depth + 1) (some parent.building) st with
    | mk st1 oc =>
      rw [hens] at hei
      cases oc with
      | none => exact hei
      | some child =>
        dsimp only
        by_cases hedge : (st1.edges.any
            (fun e => decide (e.source = parent.id ∧ e.target = child.id))) = true
        · rw [if_pos hedge]
          by_cases hcond : 0 < max (eff - 1) (budget child.id) ∧
              (best child.id).getD (-1) < max (eff - 1) (budget child.id)
          · rw [if_pos hcond]; exact hei
          · rw [if_neg hcond]; exact hei
        · rw [if_neg hedge]
          by_cases hcond : 0 < max (eff - 1) (budget child.id) ∧
              (best child.id).getD (-1) < max (eff - 1) (budget child.id)
          · rw [if_pos hcond]
            exact connect_inv st1 parent child i.name hei
          · rw [if_neg hcond]
            exact connect_inv st1 parent child i.name hei

lemma foldl_bfsChildStep_inv (cat : Catalog)
    (cr cb : String → Option String) (budget : String → ℤ)
    (parent : GraphNode) (eff : ℤ) (inputs : List NodeIn) :
    ∀ acc : BuildSt × (String → Option ℤ) × List QItem, Inv acc.1 →
      Inv ((inputs.foldl (bfsChildStep cat cr cb budget parent eff) acc).1) := by
  induction inputs with
  | nil => intro acc h; exact h
  | cons i rest ih =>
    intro acc h
    simp only [List.foldl_cons]
    exact ih _ (bfsChildStep_inv cat cr cb budget parent eff acc i h)

lemma bfsLoop_inv (cat : Catalog) (cr cb : String → Option String)
    (budget : String → ℤ) :
    ∀ (fuel : Nat) (st : BuildSt) (best : String → Option ℤ)
      (q : List QItem), Inv st → Inv (bfsLoop cat cr cb budget fuel st best q) := by
  intro fuel
  induction fuel with
  | zero => intro st best q h; exact h
  | succ n ih =>
    intro st best q h
    cases q with
    | nil => exact h
    | cons item rest =>
      obtain ⟨id, rem⟩ := item
      simp only [bfsLoop]
      by_cases hrem : rem ≤ 0
      · rw [if_pos hrem]; exact ih st best rest h
      · rw [if_neg hrem]
        cases hk : st.byKey id with
        | none => exact ih st best rest h
        | some parent =>
          dsimp only
          exact ih _ _ _ (foldl_bfsChildStep_inv cat cr cb budget parent
            (max rem (budget parent.id)) parent.inputs (st, best, rest) h)

/-- The Step-1 per-input body preserves the invariant and only grows
the state. -/
lemma step1Body_inv_grows (cat : Catalog) (cr cb : String → Option String)
    (root : GraphNode) (st : BuildSt) (i : NodeIn) (hinv : Inv st) :
    Inv ((fun st (i : NodeIn) =>
      if productIndex cat i.name = [] then st
      else
        match ensureNode cat cr cb i.name i.ratePerMin 1
            (some root.building) st with
        | (st2, none) => st2
        | (st2, some child) => connect st2 root child i.name) st i) ∧
    Grows st ((fun st (i : NodeIn) =>
      if productIndex cat i.name = [] then st
      else
        match ensureNode cat cr cb i.name i.ratePerMin 1
            (some root.building) st with
        | (st2, none) => st2
        | (st2, some child) => connect st2 root child i.name) st i) := by
  dsimp only
  by_cases hraw : productIndex cat i.name = []
  · rw [if_pos hraw]; exact ⟨hinv, Grows.refl st⟩
  · rw [if_neg hraw]
    have hei := (ensureNode_inv cat cr cb i.name i.ratePerMin 1
      (some root.building) st hinv).1
    have heg := ensureNode_grows cat cr cb i.name i.ratePerMin 1
      (some root.building) st
    cases hens : ensureNode cat cr cb i.name i.ratePerMin 1
        (some root.building) st with
    | mk st2 oc =>
      rw [hens] at hei heg
      cases oc with
      | none => exact ⟨hei, heg⟩
      | some child =>
        exact ⟨connect_inv st2 root child i.name hei,
          heg.trans (connect_grows st2 root child i.name)⟩

lemma step1Target_inv_grows (cat : Catalog)
    (cr cb : String → Option String) (st : BuildSt) (t : Target)
    (hinv : Inv st) :
    Inv (step1Target cat cr cb st t) ∧
    Grows st (step1Target cat cr cb st t) := by
  unfold step1Target
  have hei := (ensureNode_inv cat cr cb t.product t.ratePerMin 0 none st hinv).1
  have heg := ensureNode_grows cat cr cb t.product t.ratePerMin 0 none st
  cases hens : ensureNode cat cr cb t.product t.ratePerMin 0 none st with
  | mk st1 oc =>
    rw [hens] at hei heg
    cases oc with
    | none => exact ⟨hei, heg⟩
    | some root =>
      dsimp only
      have hfold : ∀ (inputs : List NodeIn) (acc : BuildSt), Inv acc →
          Inv (inputs.foldl (fun st i =>
            if productIndex cat i.name = [] then st
            else
              match ensureNode cat cr cb i.name i.ratePerMin 1
                  (some root.building) st with
              | (st2, none) => st2
              | (st2, some child) => connect st2 root child i.name) acc) ∧
          Grows acc (inputs.foldl (fun st i =>
            if productIndex cat i.name = [] then st
            else
              match ensureNode cat cr cb i.name i.ratePerMin 1
                  (some root.building) st with
              | (st2, none) => st2
              | (st2, some child) => connect st2 root child i.name) acc) := by
        intro inputs
        induction inputs with
        | nil => intro acc h; exact ⟨h, Grows.refl acc⟩
        | cons i rest ih =>
          intro acc h
          simp only [List.foldl_cons]
          obtain ⟨h1, h2⟩ := step1Body_inv_grows cat cr cb root acc i h
          obtain ⟨h3, h4⟩ := ih _ h1
          exact ⟨h3, h2.trans h4⟩
      obtain ⟨h1, h2⟩ := hfold root.inputs st1 hei
      exact ⟨h1, heg.trans h2⟩

lemma step1Fold_inv_grows (cat : Catalog) (cr cb : String → Option String)
    (targets : List Target) :
    ∀ st : BuildSt, Inv st →
      Inv (targets.foldl (step1Target cat cr cb) st) ∧
      Grows st (targets.foldl (step1Target cat cr cb) st) := by
  induction targets with
  | nil => intro st h; exact ⟨h, Grows.refl st⟩
  | cons t rest ih =>
    intro st h
    simp only [List.foldl_cons]
    obtain ⟨h1, h2⟩ := step1Target_inv_grows cat cr cb st t h
    obtain ⟨h3, h4⟩ := ih _ h1
    exact ⟨h3, h2.trans h4⟩

/-- Every state the builder produces is key-coherent. -/
lemma buildRun_inv (cat : Catalog) (cr cb : String → Option String)
    (budget : String → ℤ) (targets : List Target) (fuel : Nat) :
    Inv (buildRun cat cr cb budget targets fuel) := by
  unfold buildRun
  exact bfsLoop_inv cat cr cb budget fuel _ _ _
    (step1Fold_inv_grows cat cr cb targets BuildSt.empty Inv.empty).1

/-! ### C4 — one node per (product, recipeId); first materialization wins -/

/-- C4: a build never materializes two nodes for the same
(product, recipeId) pair, and `ensureNode` on an already-stored key
returns the stored node and the unchanged state — independent of the
new path's demanded rate, so the second path's demand is not added. -/
theorem build_node_identity (cat : Catalog)
    (cr cb : String → Option String) (budget : String → ℤ)
    (targets : List Target) (fuel : Nat) :
    ((buildRun cat cr cb budget targets fuel).nodes.map
      (fun n => (n.product, n.recipeId))).Nodup ∧
    (∀ (product : String) (req : ℚ) (depth : Nat) (pb : Option String)
        (st : BuildSt) (r : Recipe) (n : GraphNode),
      pickRecipeWithPrefs cat product (cr product) (cb product) pb = some r →
      st.byKey (nodeIdFor product r.recipeId) = some n →
      ensureNode cat cr cb product req depth pb st = (st, some n)) := by
  constructor
  · have hinv := buildRun_inv cat cr cb budget targets fuel
    have hmap : (buildRun cat cr cb budget targets fuel).nodes.map
        GraphNode.id =
        ((buildRun cat cr cb budget targets fuel).nodes.map
          (fun n => (n.product, n.recipeId))).map
          (fun pr => pr.1 ++ "::" ++ pr.2) := by
      rw [List.map_map]
      exact List.map_congr_left (fun a ha => hinv.idEq a ha)
    have := hinv.nodupIds
    rw [hmap] at this
    exact this.of_map _
  · intro product req depth pb st r n hpick hk
    unfold ensureNode
    rw [hpick]
    dsimp only
    rw [hk]

theorem build_node_identity_witness :
    ((buildRun chainCat (fun _ => none) (fun _ => none) (fun _ => 0)
      [⟨"Gear", 60, none⟩] 3).nodes.map
      (fun n => (n.product, n.recipeId))).Nodup ∧
    ensureNode chainCat (fun _ => none) (fun _ => none) "Gear" 999 5 none
      gearSt = (gearSt, some gearNode) :=
  ⟨(build_node_identity chainCat (fun _ => none) (fun _ => none)
      (fun _ => 0) [⟨"Gear", 60, none⟩] 3).1,
   (build_node_identity chainCat (fun _ => none) (fun _ => none)
      (fun _ => 0) [⟨"Gear", 60, none⟩] 3).2 "Gear" 999 5 none gearSt
      gearRecipe gearNode (by decide) rfl⟩

/-! ### C3 — the always-visible baseline: root plus one upstream hop -/

lemma step1Target_eq (cat : Catalog) (cr cb : String → Option String)
    (st : BuildSt) (t : Target) :
    step1Target cat cr cb st t =
      match ensureNode cat cr cb t.product t.ratePerMin 0 none st with
      | (st1, none) => st1
      | (st1, some root) => step1ChildFold cat cr cb root root.inputs st1 := rfl

/-- Through the Step-1 fold, every craftable input of the root gains a
depth-1 child node (identity `inputName::resolvedRecipeId`, resolved
with the root's building hint) and a root-to-child edge; the root stays,
all materialized non-root nodes sit at depth 1, and the state only
grows. -/
lemma step1ChildFold_children (cat : Catalog)
    (cr cb : String → Option String) (root : GraphNode) :
    ∀ (inputs : List NodeIn) (acc : BuildSt),
      Inv acc → root ∈ acc.nodes →
      (∀ n ∈ acc.nodes, n = root ∨ n.depth = 1) →
      (∀ i ∈ inputs, ∀ rc ∈ productIndex cat i.name,
        nodeIdFor i.name rc.recipeId ≠ root.id) →
      Inv (step1ChildFold cat cr cb root inputs acc) ∧
      Grows acc (step1ChildFold cat cr cb root inputs acc) ∧
      root ∈ (step1ChildFold cat cr cb root inputs acc).nodes ∧
      (∀ n ∈ (step1ChildFold cat cr cb root inputs acc).nodes,
        n = root ∨ n.depth = 1) ∧
      (∀ i ∈ inputs, productIndex cat i.name ≠ [] →
        ∃ child rc, child ∈ (step1ChildFold cat cr cb root inputs acc).nodes ∧
          pickRecipeWithPrefs cat i.name (cr i.name) (cb i.name)
            (some root.building) = some rc ∧
          child.id = nodeIdFor i.name rc.recipeId ∧ child.depth = 1 ∧
          ∃ e ∈ (step1ChildFold cat cr cb root inputs acc).edges,
            e.source = root.id ∧ e.target = child.id ∧ e.label = i.name) := by
  intro inputs
  induction inputs with
  | nil =>
    intro acc hinv hroot hq _
    exact ⟨hinv, Grows.refl acc, hroot, hq, by simp⟩
  | cons i rest ih =>
    intro acc hinv hroot hq hsep
    have hbody := step1Body_inv_grows cat cr cb root acc i hinv
    set acc1 := (fun st (i : NodeIn) =>
      if productIndex cat i.name = [] then st
      else
        match ensureNode cat cr cb i.name i.ratePerMin 1
            (some root.building) st with
        | (st2, none) => st2
        | (st2, some child) => connect st2 root child i.name) acc i with hacc1
    have hfold : step1ChildFold cat cr cb root (i :: rest) acc =
        step1ChildFold cat cr cb root rest acc1 := by
      simp only [step1ChildFold, List.foldl_cons, hacc1]
    -- the one-step state: invariant, growth, root kept, depth-1 discipline
    have hroot1 : root ∈ acc1.nodes := hbody.2.1.subset hroot
    have hq1 : ∀ n ∈ acc1.nodes, n = root ∨ n.depth = 1 := by
      intro n hn
      rw [hacc1] at hn
      dsimp only at hn
      by_cases hraw : productIndex cat i.name = []
      · rw [if_pos hraw] at hn
        exact hq n hn
      · rw [if_neg hraw] at hn
        cases hpick : pickRecipeWithPrefs cat i.name (cr i.name) (cb i.name)
            (some root.building) with
        | none =>
          rw [show ensureNode cat cr cb i.name i.ratePerMin 1
              (some root.building) acc = (acc, none) by
            unfold ensureNode; rw [hpick]] at hn
          exact hq n hn
        | some rc =>
          cases hk : acc.byKey (nodeIdFor i.name rc.recipeId) with
          | some m =>
            rw [show ensureNode cat cr cb i.name i.ratePerMin 1
                (some root.building) acc = (acc, some m) by
              unfold ensureNode; rw [hpick]; dsimp only; rw [hk]] at hn
            exact hq n (by simpa [connect] using hn)
          | none =>
            rw [show ensureNode cat cr cb i.name i.ratePerMin 1
                (some root.building) acc =
                ({ nodes := acc.nodes ++ [makeNode rc i.name i.ratePerMin 1]
                   edges := acc.edges
                   byKey := upd acc.byKey (nodeIdFor i.name rc.recipeId)
                     (some (makeNode rc i.name i.ratePerMin 1)) },
                 some (makeNode rc i.name i.ratePerMin 1)) by
              unfold ensureNode; rw [hpick]; dsimp only; rw [hk]] at hn
            simp only [connect, List.mem_append, List.mem_singleton] at hn
            rcases hn with hn | hn
            · exact hq n hn
            · right; rw [hn]; rfl
    obtain ⟨hinv2, hgrow2, hroot2, hq2, hrest⟩ :=
      ih acc1 hbody.1 hroot1 hq1
        (fun j hj => hsep j (List.mem_cons_of_mem _ hj))
    refine ⟨by rwa [hfold], ?_, by rwa [hfold], by rwa [hfold], ?_⟩
    · rw [hfold]; exact hbody.2.trans hgrow2
    · intro j hj hjraw
      rcases List.mem_cons.mp hj with hj | hj
      · -- the head input: produce its child and edge in acc1, lift by growth
        subst hj
        cases hpick : pickRecipeWithPrefs cat j.name (cr j.name) (cb j.name)
            (some root.building) with
        | none =>
          exact absurd ((pickRecipeWithPrefs_none_iff cat j.name _ _ _).mp
            hpick) hjraw
        | some rc =>
          have hrcmem := pickRecipeWithPrefs_mem cat j.name _ _ _ rc hpick
          have hne : nodeIdFor j.name rc.recipeId ≠ root.id :=
            hsep j (List.mem_cons_self _ _) rc hrcmem
          cases hk : acc.byKey (nodeIdFor j.name rc.recipeId) with
          | some m =>
            have hens : ensureNode cat cr cb j.name j.ratePerMin 1
                (some root.building) acc = (acc, some m) := by
              unfold ensureNode; rw [hpick]; dsimp only; rw [hk]
            have hacc1eq : acc1 = connect acc root m j.name := by
              rw [hacc1]; dsimp only; rw [if_neg hjraw, hens]
            obtain ⟨hmmem, hmid⟩ := hinv.mem_of_byKey _ _ hk
            have hmdepth : m.depth = 1 := by
              rcases hq m hmmem with hm | hm
              · exact absurd (by rw [← hm, hmid]) hne
              · exact hm
            refine ⟨m, rc, ?_, rfl, hmid, hmdepth, ?_⟩
            · exact hgrow2.1.subset (by
                rw [hacc1eq]
                exact hmmem)
            · refine ⟨⟨root.id ++ "=>" ++ m.id ++ "#" ++
                toString acc.edges.length, root.id, m.id, j.name⟩, ?_,
                rfl, rfl, rfl⟩
              apply hgrow2.2.subset
              rw [hacc1eq]
              simp [connect]
          | none =>
            have hens : ensureNode cat cr cb j.name j.ratePerMin 1
                (some root.building) acc =
                ({ nodes := acc.nodes ++ [makeNode rc j.name j.ratePerMin 1]
                   edges := acc.edges
                   byKey := upd acc.byKey (nodeIdFor j.name rc.recipeId)
                     (some (makeNode rc j.name j.ratePerMin 1)) },
                 some (makeNode rc j.name j.ratePerMin 1)) := by
              unfold ensureNode; rw [hpick]; dsimp only; rw [hk]
            have hacc1eq : acc1 = connect
                { nodes := acc.nodes ++ [makeNode rc j.name j.ratePerMin 1]
                  edges := acc.edges
                  byKey := upd acc.byKey (nodeIdFor j.name rc.recipeId)
                    (some (makeNode rc j.name j.ratePerMin 1)) }
                root (makeNode rc j.name j.ratePerMin 1) j.name := by
              rw [hacc1]; dsimp only; rw [if_neg hjraw, hens]
            refine ⟨makeNode rc j.name j.ratePerMin 1, rc, ?_, rfl, rfl,
              rfl, ?_⟩
            · apply hgrow2.1.subset
              rw [hacc1eq]
              simp [connect]
            · refine ⟨⟨root.id ++ "=>" ++
                (makeNode rc j.name j.ratePerMin 1).id ++ "#" ++
                toString acc.edges.length, root.id,
                (makeNode rc j.name j.ratePerMin 1).id, j.name⟩, ?_,
                rfl, rfl, rfl⟩
              apply hgrow2.2.subset
              rw [hacc1eq]
              simp [connect]
      · obtain ⟨child, rc, hc1, hc2, hc3, hc4, e, he1, he2⟩ :=
          hrest j hj hjraw
        exact ⟨child, rc, by rwa [hfold], hc2, hc3, hc4, e,
          by rwa [hfold], he2⟩

/-- C3 counterexample: with two targets for the same product
(`Gear` at 60/min and at 30/min), the build contains a single Gear node,
whose `runsPerMin` is 2 (from the first target); the claim instead
requires a depth-0 root for the second target with
`runsPerMin = 30 / outputRatePerMin = 1`, and no node with
`runsPerMin = 1` exists. -/
theorem build_baseline_claim_false :
    ((buildRun soloGearCat (fun _ => none) (fun _ => none) (fun _ => 0)
        [⟨"Gear", 60, none⟩, ⟨"Gear", 30, none⟩] 3).nodes.map
      (fun n => (n.product, n.runsPerMin, n.depth))) = [("Gear", 2, 0)] ∧
    (30 : ℚ) / outputRatePerMin gearRecipe "Gear" = 1 := by
  constructor
  · with_unfolding_all decide
  · with_unfolding_all decide

/-- C3 (amended): for a single-target list whose product resolves to a
recipe, and whose resolved inputs cannot collide with the root's own
node identity, the build materializes the depth-0 root with
`runsPerMin = ratePerMin / outputRatePerMin` (0 when that rate is 0)
and, for every craftable input, a depth-1 child resolved with the root's
building as the parent hint, connected by a root-to-child edge —
regardless of the expansion-budget map. -/
theorem build_baseline_visible (cat : Catalog)
    (cr cb : String → Option String) (budget : String → ℤ) (t : Target)
    (fuel : Nat) (r : Recipe)
    (hpick : pickRecipeWithPrefs cat t.product (cr t.product)
      (cb t.product) none = some r)
    (hsep : ∀ i ∈ (makeNode r t.product t.ratePerMin 0).inputs,
      ∀ rc ∈ productIndex cat i.name,
        nodeIdFor i.name rc.recipeId ≠
          (makeNode r t.product t.ratePerMin 0).id) :
    (makeNode r t.product t.ratePerMin 0) ∈
      (buildRun cat cr cb budget [t] fuel).nodes ∧
    (makeNode r t.product t.ratePerMin 0).depth = 0 ∧
    (makeNode r t.product t.ratePerMin 0).runsPerMin =
      (if outputRatePerMin r t.product = 0 then 0
       else t.ratePerMin / outputRatePerMin r t.product) ∧
    (∀ i ∈ (makeNode r t.product t.ratePerMin 0).inputs,
      productIndex cat i.name ≠ [] →
      ∃ child rc, child ∈ (buildRun cat cr cb budget [t] fuel).nodes ∧
        pickRecipeWithPrefs cat i.name (cr i.name) (cb i.name)
          (some (makeNode r t.product t.ratePerMin 0).building) = some rc ∧
        child.id = nodeIdFor i.name rc.recipeId ∧ child.depth = 1 ∧
        ∃ e ∈ (buildRun cat cr cb budget [t] fuel).edges,
          e.source = (makeNode r t.product t.ratePerMin 0).id ∧
          e.target = child.id ∧ e.label = i.name) := by
  set root := makeNode r t.product t.ratePerMin 0 with hroot
  set stA : BuildSt :=
    ⟨[root], [], upd (fun _ => none) (nodeIdFor t.product r.recipeId)
      (some root)⟩ with hstA
  have hens : ensureNode cat cr cb t.product t.ratePerMin 0 none
      BuildSt.empty = (stA, some root) := by
    unfold ensureNode
    rw [hpick]
    rfl
  have hst1 : [t].foldl (step1Target cat cr cb) BuildSt.empty =
      step1ChildFold cat cr cb root root.inputs stA := by
    simp only [List.foldl_cons, List.foldl_nil, step1Target_eq, hens]
  have hinvA : Inv stA := by
    have := (ensureNode_inv cat cr cb t.product t.ratePerMin 0 none
      BuildSt.empty Inv.empty).1
    rwa [hens] at this
  have hrootA : root ∈ stA.nodes := by rw [hstA]; simp
  have hqA : ∀ n ∈ stA.nodes, n = root ∨ n.depth = 1 := by
    intro n hn
    rw [hstA] at hn
    simp at hn
    exact Or.inl hn
  obtain ⟨hinv1, hgrow1, hroot1, hq1, hchild⟩ :=
    step1ChildFold_children cat cr cb root root.inputs stA hinvA hrootA
      hqA hsep
  have hbr : buildRun cat cr cb budget [t] fuel =
      bfsLoop cat cr cb budget fuel
        (step1ChildFold cat cr cb root root.inputs stA)
        (seedQueue budget (step1ChildFold cat cr cb root root.inputs
          stA).nodes).1
        (seedQueue budget (step1ChildFold cat cr cb root root.inputs
          stA).nodes).2 := by
    unfold buildRun
    rw [hst1]
  have hgrow2 := bfsLoop_grows cat cr cb budget fuel
    (step1ChildFold cat cr cb root root.inputs stA)
    (seedQueue budget (step1ChildFold cat cr cb root root.inputs
      stA).nodes).1
    (seedQueue budget (step1ChildFold cat cr cb root root.inputs
      stA).nodes).2
  refine ⟨?_, rfl, rfl, ?_⟩
  · rw [hbr]
    exact hgrow2.1.subset hroot1
  · intro i hi hiraw
    obtain ⟨child, rc, hc1, hc2, hc3, hc4, e, he1, he2⟩ :=
      hchild i hi hiraw
    exact ⟨child, rc, by rw [hbr]; exact hgrow2.1.subset hc1, hc2, hc3,
      hc4, e, by rw [hbr]; exact hgrow2.2.subset he1, he2⟩

theorem build_baseline_visible_witness :
    (makeNode gearRecipe "Gear" 60 0) ∈
      (buildRun chainCat (fun _ => none) (fun _ => none) (fun _ => 0)
        [⟨"Gear", 60, none⟩] 3).nodes ∧
    (makeNode gearRecipe "Gear" 60 0).depth = 0 ∧
    (makeNode gearRecipe "Gear" 60 0).runsPerMin =
      (if outputRatePerMin gearRecipe "Gear" = 0 then 0
       else (60 : ℚ) / outputRatePerMin gearRecipe "Gear") ∧
    (∀ i ∈ (makeNode gearRecipe "Gear" 60 0).inputs,
      productIndex chainCat i.name ≠ [] →
      ∃ child rc, child ∈ (buildRun chainCat (fun _ => none)
          (fun _ => none) (fun _ => 0) [⟨"Gear", 60, none⟩] 3).nodes ∧
        pickRecipeWithPrefs chainCat i.name none none
          (some (makeNode gearRecipe "Gear" 60 0).building) = some rc ∧
        child.id = nodeIdFor i.name rc.recipeId ∧ child.depth = 1 ∧
        ∃ e ∈ (buildRun chainCat (fun _ => none) (fun _ => none)
            (fun _ => 0) [⟨"Gear", 60, none⟩] 3).edges,
          e.source = (makeNode gearRecipe "Gear" 60 0).id ∧
          e.target = child.id ∧ e.label = i.name) :=
  build_baseline_visible chainCat (fun _ => none) (fun _ => none)
    (fun _ => 0) ⟨"Gear", 60, none⟩ 3 gearRecipe
    (by with_unfolding_all decide)
    (by with_unfolding_all decide)

/-! ### C6 — totals.raw and the worked Gear/Iron example -/

/-- Value at key `w` of the raw-accumulation inner fold: the prior value
plus the rates of the inputs named `w` (given `w` is raw). -/
lemma raw_inner_fold_at (cat : Catalog) (w : String)
    (hraw : productIndex cat w = []) :
    ∀ (inputs : List NodeIn) (acc : String → ℚ),
      (inputs.foldl
        (fun acc i =>
          if productIndex cat i.name = [] then
            upd acc i.name (acc i.name + i.ratePerMin)
          else acc) acc) w =
      acc w + (((inputs.filter (fun i => i.name = w)).map
        NodeIn.ratePerMin).sum) := by
  intro inputs
  induction inputs with
  | nil => intro acc; simp
  | cons i rest ih =>
    intro acc
    simp only [List.foldl_cons]
    by_cases hin : i.name = w
    · subst hin
      rw [if_pos hraw, ih, List.filter_cons, if_pos (by simp)]
      simp only [List.map_cons, List.sum_cons, upd, if_pos rfl]
      simp [add_assoc]
    · rw [List.filter_cons,
        if_neg (show ¬(decide (i.name = w) = true) by simp [hin])]
      by_cases hp : productIndex cat i.name = []
      · rw [if_pos hp, ih]
        have hupd : upd acc i.name (acc i.name + i.ratePerMin) w = acc w := by
          simp only [upd]
          rw [if_neg (fun h => hin h.symm)]
        rw [hupd]
      · rw [if_neg hp, ih]

/-- Value at key `w` of the full raw accumulation over all nodes. -/
lemma raw_outer_fold_at (cat : Catalog) (w : String)
    (hraw : productIndex cat w = []) :
    ∀ (nodes : List GraphNode) (acc : String → ℚ),
      (nodes.foldl
        (fun acc n =>
          n.inputs.foldl
            (fun acc i =>
              if productIndex cat i.name = [] then
                upd acc i.name (acc i.name + i.ratePerMin)
              else acc) acc) acc) w =
      acc w + ((nodes.map (fun n =>
        ((n.inputs.filter (fun i => i.name = w)).map
          NodeIn.ratePerMin).sum)).sum) := by
  intro nodes
  induction nodes with
  | nil => intro acc; simp
  | cons n rest ih =>
    intro acc
    simp only [List.foldl_cons, List.map_cons, List.sum_cons]
    rw [ih, raw_inner_fold_at cat w hraw]
    ring

/-- C6: `totals.raw` maps every product that occurs as a node input and
is absent from the index to the 2-decimal rounding of the summed input
rates; and on the spec's example catalog (Gear = 1 per 2-second cycle
from 2 Iron, Iron raw) the 60/min Gear target yields root
`runsPerMin = 2`, root input `Iron` at 4/min, and
`totals.raw = {Iron ↦ 4}`. -/
theorem computeTotals_raw_spec :
    (∀ (cat : Catalog) (nodes : List GraphNode) (w : String),
      productIndex cat w = [] →
      (computeTotals cat nodes).raw w =
        r2 ((nodes.map (fun n =>
          ((n.inputs.filter (fun i => i.name = w)).map
            NodeIn.ratePerMin).sum)).sum)) ∧
    (build soloGearCat 3 gearTargetState).graphNodes.map
      (fun n => (n.runsPerMin, n.depth, n.inputs)) =
      [((2 : ℚ), 0, [⟨"Iron", 4⟩])] ∧
    (build soloGearCat 3 gearTargetState).totals.raw "Iron" = 4 ∧
    (∀ k, k ≠ "Iron" →
      (build soloGearCat 3 gearTargetState).totals.raw k = 0) := by
  refine ⟨?_, ?_, ?_, ?_⟩
  · intro cat nodes w hraw
    show r2 _ = _
    rw [raw_outer_fold_at cat w hraw nodes (fun _ => 0)]
    norm_num
  · with_unfolding_all decide
  · with_unfolding_all decide
  · intro k hk
    have hnodes : (buildRun soloGearCat (fun _ => none) (fun _ => none)
        (fun _ => 0) [⟨"Gear", 60, none⟩] 3).nodes = [gearNodeLit] := by
      with_unfolding_all decide
    have htot : (build soloGearCat 3 gearTargetState).totals.raw =
        (computeTotals soloGearCat (buildRun soloGearCat (fun _ => none)
          (fun _ => none) (fun _ => 0) [⟨"Gear", 60, none⟩] 3).nodes).raw :=
      rfl
    rw [htot, hnodes]
    show r2 _ = 0
    have hIron : productIndex soloGearCat "Iron" = [] := by decide
    simp only [gearNodeLit, List.foldl_cons, List.foldl_nil]
    rw [if_pos hIron]
    simp only [upd, if_neg hk]
    simp [r2]

theorem computeTotals_raw_spec_witness :
    (computeTotals soloGearCat [gearNodeLit]).raw "Iron" =
      r2 ((([gearNodeLit].map (fun n =>
        ((n.inputs.filter (fun i => i.name = "Iron")).map
          NodeIn.ratePerMin).sum)).sum)) ∧
    (build soloGearCat 3 gearTargetState).totals.raw "Iron" = 4 ∧
    (build soloGearCat 3 gearTargetState).totals.raw "Gear" = 0 :=
  ⟨computeTotals_raw_spec.1 soloGearCat [gearNodeLit] "Iron" (by decide),
   computeTotals_raw_spec.2.2.1,
   computeTotals_raw_spec.2.2.2 "Gear" (by decide)⟩

/-! ### C9 — operations on stale node ids -/

/-- A child step leaves the node list exactly as `ensureNode` left it. -/
lemma bfsChildStep_nodes (cat : Catalog) (cr cb : String → Option String)
    (b : String → ℤ) (parent : GraphNode) (eff : ℤ) (st st1 : BuildSt)
    (best : String → Option ℤ) (q : List QItem) (i : NodeIn)
    (child : GraphNode) (hraw : productIndex cat i.name ≠ [])
    (hens : ensureNode cat cr cb i.name i.ratePerMin (parent.depth + 1)
      (some parent.building) st = (st1, some child)) :
    (bfsChildStep cat cr cb b parent eff (st, best, q) i).1.nodes =
      st1.nodes := by
  simp only [bfsChildStep, if_neg hraw, hens]
  by_cases hcond : 0 < max (eff - 1) (b child.id) ∧
      (best child.id).getD (-1) < max (eff - 1) (b child.id)
  · rw [if_pos hcond]
    by_cases hedge : (st1.edges.any
        (fun e => decide (e.source = parent.id ∧ e.target = child.id))) = true
    · rw [if_pos hedge]
    · rw [if_neg hedge]; rfl
  · rw [if_neg hcond]
    by_cases hedge : (st1.edges.any
        (fun e => decide (e.source = parent.id ∧ e.target = child.id))) = true
    · rw [if_pos hedge]
    · rw [if_neg hedge]; rfl

/-- Two budget maps agreeing away from an id that is never materialized
drive a child step identically. -/
lemma bfsChildStep_frame (cat : Catalog) (cr cb : String → Option String)
    (b1 b2 : String → ℤ) (x : String)
    (hagree : ∀ k, k ≠ x → b1 k = b2 k) (parent : GraphNode) (eff : ℤ)
    (acc : BuildSt × (String → Option ℤ) × List QItem) (i : NodeIn)
    (hinv : Inv acc.1)
    (hx : x ∉ ((bfsChildStep cat cr cb b1 parent eff acc i).1.nodes.map
      GraphNode.id)) :
    bfsChildStep cat cr cb b2 parent eff acc i =
      bfsChildStep cat cr cb b1 parent eff acc i := by
  obtain ⟨st, best, q⟩ := acc
  by_cases hraw : productIndex cat i.name = []
  · simp only [bfsChildStep, if_pos hraw]
  · cases hens : ensureNode cat cr cb i.name i.ratePerMin
        (parent.depth + 1) (some parent.building) st with
    | mk st1 oc =>
      cases oc with
      | none => simp only [bfsChildStep, if_neg hraw, hens]
      | some child =>
        have hcmem : child ∈ st1.nodes := by
          have h2 := (ensureNode_inv cat cr cb i.name i.ratePerMin
            (parent.depth + 1) (some parent.building) st hinv).2
          rw [hens] at h2
          exact h2 child rfl
        have hcne : child.id ≠ x := by
          intro h
          apply hx
          rw [bfsChildStep_nodes cat cr cb b1 parent eff st st1 best q i
            child hraw hens]
          rw [← h]
          exact List.mem_map_of_mem GraphNode.id hcmem
        have hb := hagree child.id hcne
        simp only [bfsChildStep, if_neg hraw, hens]
        rw [← hb]

/-- The input fold is budget-frame-stable away from unmaterialized ids. -/
lemma foldl_bfsChildStep_frame (cat : Catalog)
    (cr cb : String → Option String) (b1 b2 : String → ℤ) (x : String)
    (hagree : ∀ k, k ≠ x → b1 k = b2 k) (parent : GraphNode) (eff : ℤ) :
    ∀ (inputs : List NodeIn)
      (acc : BuildSt × (String → Option ℤ) × List QItem), Inv acc.1 →
      x ∉ (((inputs.foldl (bfsChildStep cat cr cb b1 parent eff)
        acc).1).nodes.map GraphNode.id) →
      inputs.foldl (bfsChildStep cat cr cb b2 parent eff) acc =
        inputs.foldl (bfsChildStep cat cr cb b1 parent eff) acc := by
  intro inputs
  induction inputs with
  | nil => intro acc _ _; rfl
  | cons i rest ih =>
    intro acc hinv hx
    simp only [List.foldl_cons] at hx ⊢
    have hx_head : x ∉ ((bfsChildStep cat cr cb b1 parent eff
        acc i).1.nodes.map GraphNode.id) := by
      intro hmem
      apply hx
      obtain ⟨n, hn, hnid⟩ := List.mem_map.mp hmem
      have hg := foldl_bfsChildStep_grows cat cr cb b1 parent eff rest
        (bfsChildStep cat cr cb b1 parent eff acc i)
      rw [← hnid]
      exact List.mem_map_of_mem GraphNode.id (hg.1.subset hn)
    rw [bfsChildStep_frame cat cr cb b1 b2 x hagree parent eff acc i hinv
      hx_head]
    exact ih (bfsChildStep cat cr cb b1 parent eff acc i)
      (bfsChildStep_inv cat cr cb b1 parent eff acc i hinv) hx

/-- The expansion loop is budget-frame-stable away from ids never
materialized in its result. -/
lemma bfsLoop_frame (cat : Catalog) (cr cb : String → Option String)
    (b1 b2 : String → ℤ) (x : String)
    (hagree : ∀ k, k ≠ x → b1 k = b2 k) :
    ∀ (fuel : Nat) (st : BuildSt) (best : String → Option ℤ)
      (q : List QItem), Inv st →
      x ∉ ((bfsLoop cat cr cb b1 fuel st best q).nodes.map GraphNode.id) →
      bfsLoop cat cr cb b2 fuel st best q =
        bfsLoop cat cr cb b1 fuel st best q := by
  intro fuel
  induction fuel with
  | zero => intro st best q _ _; rfl
  | succ n ih =>
    intro st best q hinv hx
    cases q with
    | nil => rfl
    | cons item rest =>
      obtain ⟨id, rem⟩ := item
      simp only [bfsLoop] at hx ⊢
      by_cases hrem : rem ≤ 0
      · rw [if_pos hrem, if_pos hrem]
        rw [if_pos hrem] at hx
        exact ih st best rest hinv hx
      · rw [if_neg hrem, if_neg hrem]
        rw [if_neg hrem] at hx
        cases hk : st.byKey id with
        | none =>
          rw [hk] at hx
          exact ih st best rest hinv hx
        | some parent =>
          rw [hk] at hx
          dsimp only at hx
          dsimp only
          have hpmem := (hinv.mem_of_byKey id parent hk).1
          have hpne : parent.id ≠ x := by
            intro h
            apply hx
            have hg1 := foldl_bfsChildStep_grows cat cr cb b1 parent
              (max rem (b1 parent.id)) parent.inputs (st, best, rest)
            have hg2 := bfsLoop_grows cat cr cb b1 n
              (parent.inputs.foldl (bfsChildStep cat cr cb b1 parent
                (max rem (b1 parent.id))) (st, best, rest)).1
              (parent.inputs.foldl (bfsChildStep cat cr cb b1 parent
                (max rem (b1 parent.id))) (st, best, rest)).2.1
              (parent.inputs.foldl (bfsChildStep cat cr cb b1 parent
                (max rem (b1 parent.id))) (st, best, rest)).2.2
            rw [← h]
            exact List.mem_map_of_mem GraphNode.id
              (hg2.1.subset (hg1.1.subset hpmem))
          rw [← hagree parent.id hpne]
          have hxout : x ∉ ((parent.inputs.foldl (bfsChildStep cat cr cb
              b1 parent (max rem (b1 parent.id)))
              (st, best, rest)).1.nodes.map GraphNode.id) := by
            intro hmem
            apply hx
            obtain ⟨m, hm, hmid⟩ := List.mem_map.mp hmem
            have hg2 := bfsLoop_grows cat cr cb b1 n
              (parent.inputs.foldl (bfsChildStep cat cr cb b1 parent
                (max rem (b1 parent.id))) (st, best, rest)).1
              (parent.inputs.foldl (bfsChildStep cat cr cb b1 parent
                (max rem (b1 parent.id))) (st, best, rest)).2.1
              (parent.inputs.foldl (bfsChildStep cat cr cb b1 parent
                (max rem (b1 parent.id))) (st, best, rest)).2.2
            rw [← hmid]
            exact List.mem_map_of_mem GraphNode.id (hg2.1.subset hm)
          rw [foldl_bfsChildStep_frame cat cr cb b1 b2 x hagree parent
            (max rem (b1 parent.id)) parent.inputs (st, best, rest) hinv
            hxout]
          exact ih _ _ _
            (foldl_bfsChildStep_inv cat cr cb b1 parent
              (max rem (b1 parent.id)) parent.inputs (st, best, rest) hinv)
            hx

/-- Queue seeding is budget-frame-stable on node lists avoiding the
changed id. -/
lemma seedQueue_frame (b1 b2 : String → ℤ) (x : String)
    (hagree : ∀ k, k ≠ x → b1 k = b2 k) :
    ∀ (nodes : List GraphNode), (∀ n ∈ nodes, n.id ≠ x) →
      ∀ acc, nodes.foldl
        (fun (acc : (String → Option ℤ) × List QItem) n =>
          if 0 < b2 n.id then
            (upd acc.1 n.id (some (b2 n.id)), acc.2 ++ [(n.id, b2 n.id)])
          else acc) acc =
      nodes.foldl
        (fun (acc : (String → Option ℤ) × List QItem) n =>
          if 0 < b1 n.id then
            (upd acc.1 n.id (some (b1 n.id)), acc.2 ++ [(n.id, b1 n.id)])
          else acc) acc := by
  intro nodes
  induction nodes with
  | nil => intro _ acc; rfl
  | cons n rest ih =>
    intro hids acc
    simp only [List.foldl_cons]
    rw [← hagree n.id (hids n (by simp))]
    exact ih (fun m hm => hids m (List.mem_cons_of_mem _ hm)) _

/-- Changing the budget only at an id that the build never materializes
does not change the build at all. -/
lemma buildRun_frame (cat : Catalog) (cr cb : String → Option String)
    (b1 b2 : String → ℤ) (x : String)
    (hagree : ∀ k, k ≠ x → b1 k = b2 k) (targets : List Target)
    (fuel : Nat)
    (hx : x ∉ ((buildRun cat cr cb b1 targets fuel).nodes.map
      GraphNode.id)) :
    buildRun cat cr cb b2 targets fuel =
      buildRun cat cr cb b1 targets fuel := by
  have hinv1 := (step1Fold_inv_grows cat cr cb targets BuildSt.empty
    Inv.empty).1
  simp only [buildRun] at hx ⊢
  set st1 := targets.foldl (step1Target cat cr cb) BuildSt.empty with hst1
  have hgrow := bfsLoop_grows cat cr cb b1 fuel st1
    (seedQueue b1 st1.nodes).1 (seedQueue b1 st1.nodes).2
  have hids : ∀ n ∈ st1.nodes, n.id ≠ x := by
    intro n hn h
    apply hx
    rw [← h]
    exact List.mem_map_of_mem GraphNode.id (hgrow.1.subset hn)
  have hseed : seedQueue b2 st1.nodes = seedQueue b1 st1.nodes := by
    simp only [seedQueue]
    exact seedQueue_frame b1 b2 x hagree st1.nodes hids _
  rw [hseed]
  exact bfsLoop_frame cat cr cb b1 b2 x hagree fuel st1
    (seedQueue b1 st1.nodes).1 (seedQueue b1 st1.nodes).2 hinv1 hx

/-- The action `build` is idempotent: rebuilding a just-built state changes
nothing. -/
lemma build_build (cat : Catalog) (fuel : Nat) (s : PlannerState) :
    build cat fuel (build cat fuel s) = build cat fuel s := by
  unfold build
  by_cases h : s.targets.isEmpty
  · rw [if_pos h]
    dsimp only
    rw [if_pos h]
  · rw [if_neg h]
    dsimp only
    rw [if_neg h]

/-- Graph-side fields of a `build` on a non-empty target list. -/
lemma build_graph_fields (cat : Catalog) (fuel : Nat) (s : PlannerState)
    (hne : ¬ s.targets.isEmpty = true) :
    (build cat fuel s).graphNodes =
      (buildRun cat s.choicesRecipe s.choicesBuilding s.expandedByNode
        s.targets fuel).nodes ∧
    (build cat fuel s).graphEdges =
      (buildRun cat s.choicesRecipe s.choicesBuilding s.expandedByNode
        s.targets fuel).edges ∧
    (build cat fuel s).totals =
      computeTotals cat (buildRun cat s.choicesRecipe s.choicesBuilding
        s.expandedByNode s.targets fuel).nodes := by
  unfold build
  rw [if_neg hne]
  exact ⟨rfl, rfl, rfl⟩

/-- Graph-side fields of a `build` on an empty target list. -/
lemma build_graph_empty (cat : Catalog) (fuel : Nat) (s : PlannerState)
    (he : s.targets.isEmpty = true) :
    (build cat fuel s).graphNodes = [] ∧
    (build cat fuel s).graphEdges = [] ∧
    (build cat fuel s).totals = ⟨fun _ => 0, fun _ => 0⟩ := by
  unfold build
  rw [if_pos he]
  exact ⟨rfl, rfl, rfl⟩

/-- C9 counterexample: `expandNodeOnce` on an id absent from the current
graph is NOT a no-op on the observable state — it records an expansion
budget of 1 under the stale id (the prior budget was 0 and the graph did
not contain the id). -/
theorem stale_id_no_op_claim_false :
    (expandNodeOnce soloGearCat 3 "Ghost::R9"
      emptyPlannerState).expandedByNode "Ghost::R9" = 1 ∧
    emptyPlannerState.expandedByNode "Ghost::R9" = 0 ∧
    emptyPlannerState.graphNodes = [] := by
  refine ⟨?_, rfl, rfl⟩
  with_unfolding_all decide

/-- C9 (amended): with a node id absent from the current (just-built)
graph, `swapNodeRecipe` is a complete no-op and does not throw;
`expandNodeOnce` and `expandBranchBy` do not throw and leave the
targets, both preference maps, the graph, and the totals unchanged —
including everything later builds derive from them — but they do
increment a budget entry keyed by the stale id (by 1, respectively by
`max 1 hops`), so the stored expansion budgets are not unchanged. -/
theorem stale_id_operations (cat : Catalog) (fuel : Nat) :
    (∀ (nodeId rid : String) (s : PlannerState),
      s.graphNodes.find? (fun n => n.id = nodeId) = none →
      swapNodeRecipe cat fuel nodeId rid s = s) ∧
    (∀ (x : String) (s : PlannerState),
      build cat fuel s = s →
      x ∉ (s.graphNodes.map GraphNode.id) →
      (expandNodeOnce cat fuel x s).targets = s.targets ∧
      (expandNodeOnce cat fuel x s).choicesRecipe = s.choicesRecipe ∧
      (expandNodeOnce cat fuel x s).choicesBuilding = s.choicesBuilding ∧
      (expandNodeOnce cat fuel x s).expandedByNode =
        upd s.expandedByNode x (s.expandedByNode x + 1) ∧
      (expandNodeOnce cat fuel x s).graphNodes = s.graphNodes ∧
      (expandNodeOnce cat fuel x s).graphEdges = s.graphEdges ∧
      (expandNodeOnce cat fuel x s).totals = s.totals) ∧
    (∀ (x : String) (hops : ℤ) (s : PlannerState),
      build cat fuel s = s →
      x ∉ (s.graphNodes.map GraphNode.id) →
      (expandBranchBy cat fuel x hops s).targets = s.targets ∧
      (expandBranchBy cat fuel x hops s).choicesRecipe = s.choicesRecipe ∧
      (expandBranchBy cat fuel x hops s).choicesBuilding =
        s.choicesBuilding ∧
      (expandBranchBy cat fuel x hops s).expandedByNode =
        upd s.expandedByNode x (s.expandedByNode x + max 1 hops) ∧
      (expandBranchBy cat fuel x hops s).graphNodes = s.graphNodes ∧
      (expandBranchBy cat fuel x hops s).graphEdges = s.graphEdges ∧
      (expandBranchBy cat fuel x hops s).totals = s.totals) := by
  have hmain : ∀ (x : String) (v : ℤ) (s : PlannerState),
      build cat fuel s = s →
      x ∉ (s.graphNodes.map GraphNode.id) →
      (build cat fuel
        { s with expandedByNode := upd s.expandedByNode x v }).graphNodes =
          s.graphNodes ∧
      (build cat fuel
        { s with expandedByNode := upd s.expandedByNode x v }).graphEdges =
          s.graphEdges ∧
      (build cat fuel
        { s with expandedByNode := upd s.expandedByNode x v }).totals =
          s.totals := by
    intro x v s hs hx
    by_cases hT : s.targets.isEmpty = true
    · obtain ⟨h1, h2, h3⟩ := build_graph_empty cat fuel
        { s with expandedByNode := upd s.expandedByNode x v } hT
      obtain ⟨h4, h5, h6⟩ := build_graph_empty cat fuel s hT
      rw [hs] at h4 h5 h6
      exact ⟨by rw [h1, h4], by rw [h2, h5], by rw [h3, h6]⟩
    · obtain ⟨h1, h2, h3⟩ := build_graph_fields cat fuel
        { s with expandedByNode := upd s.expandedByNode x v } hT
      obtain ⟨h4, h5, h6⟩ := build_graph_fields cat fuel s hT
      rw [hs] at h4 h5 h6
      have hagree : ∀ k, k ≠ x →
          s.expandedByNode k = upd s.expandedByNode x v k := by
        intro k hk
        simp [upd, hk]
      have hxids : x ∉ ((buildRun cat s.choicesRecipe s.choicesBuilding
          s.expandedByNode s.targets fuel).nodes.map GraphNode.id) := by
        rw [← h4]
        exact hx
      have hframe := buildRun_frame cat s.choicesRecipe s.choicesBuilding
        s.expandedByNode (upd s.expandedByNode x v) x hagree s.targets
        fuel hxids
      exact ⟨by rw [h1]; dsimp only; rw [hframe, h4],
        by rw [h2]; dsimp only; rw [hframe, h5],
        by rw [h3]; dsimp only; rw [hframe, h6]⟩
  refine ⟨?_, ?_, ?_⟩
  · intro nodeId rid s hfind
    unfold swapNodeRecipe
    rw [hfind]
  · intro x s hs hx
    obtain ⟨h1, h2, h3⟩ := hmain x (s.expandedByNode x + 1) s hs hx
    exact ⟨(build_fields _ _ _).1, (build_fields _ _ _).2.1,
      (build_fields _ _ _).2.2.1, (build_fields _ _ _).2.2.2, h1, h2, h3⟩
  · intro x hops s hs hx
    obtain ⟨h1, h2, h3⟩ := hmain x (s.expandedByNode x + max 1 hops) s hs hx
    exact ⟨(build_fields _ _ _).1, (build_fields _ _ _).2.1,
      (build_fields _ _ _).2.2.1, (build_fields _ _ _).2.2.2, h1, h2, h3⟩

theorem stale_id_operations_witness :
    swapNodeRecipe soloGearCat 3 "Ghost::R9" "R1"
      (build soloGearCat 3 gearTargetState) =
      build soloGearCat 3 gearTargetState ∧
    (expandNodeOnce soloGearCat 3 "Ghost::R9"
        (build soloGearCat 3 gearTargetState)).graphNodes =
      (build soloGearCat 3 gearTargetState).graphNodes ∧
    (expandNodeOnce soloGearCat 3 "Ghost::R9"
        (build soloGearCat 3 gearTargetState)).totals =
      (build soloGearCat 3 gearTargetState).totals ∧
    (expandNodeOnce soloGearCat 3 "Ghost::R9"
        (build soloGearCat 3 gearTargetState)).expandedByNode =
      upd (build soloGearCat 3 gearTargetState).expandedByNode "Ghost::R9"
        ((build soloGearCat 3 gearTargetState).expandedByNode "Ghost::R9"
          + 1) ∧
    (expandBranchBy soloGearCat 3 "Ghost::R9" 4
        (build soloGearCat 3 gearTargetState)).graphEdges =
      (build soloGearCat 3 gearTargetState).graphEdges := by
  have hb := build_build soloGearCat 3 gearTargetState
  have hx : "Ghost::R9" ∉ ((build soloGearCat 3
      gearTargetState).graphNodes.map GraphNode.id) := by
    with_unfolding_all decide
  have hfind : (build soloGearCat 3 gearTargetState).graphNodes.find?
      (fun n => n.id = "Ghost::R9") = none := by
    with_unfolding_all decide
  refine ⟨(stale_id_operations soloGearCat 3).1 "Ghost::R9" "R1" _ hfind,
    ((stale_id_operations soloGearCat 3).2.1 "Ghost::R9" _ hb hx).2.2.2.2.1,
    ((stale_id_operations soloGearCat 3).2.1 "Ghost::R9" _ hb hx).2.2.2.2.2.2,
    ((stale_id_operations soloGearCat 3).2.1 "Ghost::R9" _ hb hx).2.2.2.1,
    ((stale_id_operations soloGearCat 3).2.2 "Ghost::R9" 4 _ hb
      hx).2.2.2.2.2.1⟩

end CalcIndustry
